import Mathlib

/-!
Verification development for the MindMap editor (src/MindMap.py).

The Python program keeps each workspace as a collection of insertion-ordered
dictionaries (`nodes`, `parent`, `edge_offsets`) plus a view transform.  We
embed those dictionaries as association lists with Python dict semantics:
lookup returns the value of the first (unique) matching key, assignment
replaces the value in place when the key is present and appends a new entry
otherwise.  Python floats are modelled as exact rationals; the only functions
that need square roots (the ellipse exit point of an edge) are modelled over
the reals.  Functions that can raise `KeyError`, or whose loops can fail to
terminate, are modelled with `Option` (and an explicit fuel argument for the
potentially diverging loops).
-/

namespace MindMap

/-- Python `dict.get`: value of the first entry with the given key. -/
def dget {κ α : Type} [DecidableEq κ] : List (κ × α) → κ → Option α
  | [], _ => none
  | (k', v) :: rest, k => if k' = k then some v else dget rest k

/-- Python `d[k] = v`: replace the value in place when the key is present,
append a new entry otherwise. -/
def dset {κ α : Type} [DecidableEq κ] : List (κ × α) → κ → α → List (κ × α)
  | [], k, v => [(k, v)]
  | (k', v') :: rest, k, v =>
      if k' = k then (k, v) :: rest else (k', v') :: dset rest k v

/-! ### Configuration constants (src/MindMap.py lines 10-43) -/
def NODE_W : ℚ := 160

def NODE_H : ℚ := 56

def HORIZ_GAP : ℚ := 60

def VERT_GAP : ℚ := 36

def NODE_MARGIN : ℚ := 18

def ZOOM_MIN : ℚ := 2/5

def ZOOM_MAX : ℚ := 5/2

/-- The ten palette colors (src/MindMap.py lines 30-41); `LEVEL_COLORS` aliases it. -/
def PALETTE_COLORS : List String :=
  ["#B9C2FF", "#FFB3BE", "#FFF49A", "#C6FFB0", "#B7F0FF",
   "#DDB096", "#B5A0DD", "#9DDDD0", "#DDA0B7", "#B1DD53"]

/-! ### Data model

A Python node is the dict created in `_create_node` / `_load_data_into_current_workspace`:
keys `text, x, y, children, fill, custom, w, h`.  Loaded nodes do not carry `w`/`h`
keys; the only reader (`_node_bbox`) defaults them to `NODE_W`/`NODE_H`, so we store
those defaults directly.  A workspace is the model-state part of the `Workspace`
dataclass (canvas/widget fields are UI-only and omitted). -/
structure NodeData where
  text : String
  x : ℚ
  y : ℚ
  children : List ℕ
  fill : Option String
  custom : Bool
  w : ℚ
  h : ℚ
deriving DecidableEq

structure WS where
  nodes : List (ℕ × NodeData)
  parent : List (ℕ × Option ℕ)
  rootId : Option ℕ
  nextId : ℕ
  scale : ℚ
  offsetX : ℚ
  offsetY : ℚ
  paletteIndex : ℕ
deriving DecidableEq

/-- Keys of the node dict, in insertion order. -/
def nodeIds (ws : WS) : List ℕ := ws.nodes.map Prod.fst

/-- Python `self.parent.get(n)`: `None` both for a missing key and a stored `None`. -/
def parentOf (parent : List (ℕ × Option ℕ)) (n : ℕ) : Option ℕ :=
  (dget parent n).getD none

/-- Children list of a node, `[]` when the id is absent (used only in statements). -/
def childrenOfD (ws : WS) (p : ℕ) : List ℕ :=
  ((dget ws.nodes p).map NodeData.children).getD []

/-! ### Coordinate transform (src/MindMap.py lines 366-379, 1505-1522) -/
/-- `_to_canvas_point` (lines 367-369). -/
def toCanvasPoint (ws : WS) (x y : ℚ) : ℚ × ℚ :=
  (ws.offsetX + x * ws.scale, ws.offsetY + y * ws.scale)

/-- `_from_canvas_point` (lines 371-375): inverse transform, identity on zero scale. -/
def fromCanvasPoint (ws : WS) (x y : ℚ) : ℚ × ℚ :=
  if ws.scale = 0 then (x, y)
  else ((x - ws.offsetX) / ws.scale, (y - ws.offsetY) / ws.scale)

/-- `_node_center` (lines 377-379): `self.nodes[nid]` can raise `KeyError`, hence `Option`. -/
def nodeCenter (ws : WS) (nid : ℕ) : Option (ℚ × ℚ) :=
  (dget ws.nodes nid).map (fun nd => toCanvasPoint ws nd.x nd.y)

/-- The clamped scale candidate of `zoom` (line 1508). -/
def zoomNewScale (ws : WS) (factor : ℚ) : ℚ :=
  max ZOOM_MIN (min ZOOM_MAX (ws.scale * factor))

/-- `zoom` (lines 1505-1522) with an explicit origin.  Python computes
`scale_ratio = new/old if old_scale else 1.0` (a zero scale is falsy). -/
def zoomWS (ws : WS) (factor : ℚ) (origin : ℚ × ℚ) : WS :=
  if |zoomNewScale ws factor - ws.scale| < 1/1000 then ws
  else
    { ws with
        offsetX := origin.1 -
          (if ws.scale ≠ 0 then zoomNewScale ws factor / ws.scale else 1) *
            (origin.1 - ws.offsetX)
        offsetY := origin.2 -
          (if ws.scale ≠ 0 then zoomNewScale ws factor / ws.scale else 1) *
            (origin.2 - ws.offsetY)
        scale := zoomNewScale ws factor }

/-! ### Free-position finder (src/MindMap.py lines 1723-1747) -/
/-- `_is_position_free` (lines 1739-1747): a point is occupied when it is closer
than `NODE_W + NODE_MARGIN` horizontally and `NODE_H + NODE_MARGIN` vertically
to some node center. -/
def isPositionFree (nodes : List (ℕ × NodeData)) (x y : ℚ) : Bool :=
  nodes.all fun p =>
    !(decide (|x - p.2.x| < NODE_W + NODE_MARGIN) && decide (|y - p.2.y| < NODE_H + NODE_MARGIN))

/-- Ring of grid cells at a given Chebyshev radius, in the source enumeration
order (`for dx in range(-radius, radius+1): for dy in ...`, skipping interior
cells). -/
def ringCells (radius : ℕ) : List (ℤ × ℤ) :=
  (List.range (2*radius+1)).flatMap fun i =>
    (List.range (2*radius+1)).filterMap fun j =>
      let dx : ℤ := (i : ℤ) - radius
      let dy : ℤ := (j : ℤ) - radius
      if dx.natAbs = radius ∨ dy.natAbs = radius then some (dx, dy) else none

/-- All candidate cells tried by `_find_free_position`, radius 1 up to 8. -/
def searchCells : List (ℤ × ℤ) :=
  (List.range 8).flatMap fun r => ringCells (r+1)

/-- `_find_free_position` (lines 1723-1737): return the candidate itself when
free, otherwise the first free ring cell (grid step `NODE_W + HORIZ_GAP` by
`NODE_H + VERT_GAP`), otherwise the radius-10 fallback. -/
def findFreePosition (nodes : List (ℕ × NodeData)) (x y : ℚ) : ℚ × ℚ :=
  if isPositionFree nodes x y then (x, y)
  else
    match searchCells.find? (fun c =>
        isPositionFree nodes (x + (c.1 : ℚ) * (NODE_W + HORIZ_GAP))
          (y + (c.2 : ℚ) * (NODE_H + VERT_GAP))) with
    | some c => (x + (c.1 : ℚ) * (NODE_W + HORIZ_GAP), y + (c.2 : ℚ) * (NODE_H + VERT_GAP))
    | none => (x + 10 * (NODE_W + HORIZ_GAP), y + 10 * (NODE_H + VERT_GAP))

/-! ### Edge candidate search (src/MindMap.py lines 1215-1347)

The geometric control-point computation `_edge_control_points` involves square
roots (`math.hypot`), so the candidate-search model abstracts it as a function
`cpf : offset → control-point pair`; the polyline sampling and all crossing
predicates are embedded exactly. -/
/-- A screen point. -/
abbrev Pt := ℚ × ℚ

/-- `_points_close` (lines 1341-1347). -/
def pointsClose (a b : Pt) (tol : ℚ) : Bool :=
  decide (|a.1 - b.1| ≤ tol) && decide (|a.2 - b.2| ≤ tol)

/-- `_shares_endpoint` (lines 1298-1311), tolerance 6. -/
def sharesEndpoint (startA endA startB endB : Pt) : Bool :=
  pointsClose startA startB 6 || pointsClose startA endB 6 ||
    pointsClose endA startB 6 || pointsClose endA endB 6

/-- `_segments_share_endpoint` (lines 1326-1339), tolerance 1.5. -/
def segmentsShareEndpoint (aStart aEnd bStart bEnd : Pt) : Bool :=
  pointsClose aStart bStart (3/2) || pointsClose aStart bEnd (3/2) ||
    pointsClose aEnd bStart (3/2) || pointsClose aEnd bEnd (3/2)

/-- Cross product used by `_segments_intersect.orientation` (lines 1356-1357). -/
def orient2d (a b c : Pt) : ℚ :=
  (b.1 - a.1) * (c.2 - a.2) - (b.2 - a.2) * (c.1 - a.1)

/-- Collinear bounding-box test `_segments_intersect.on_segment` (lines 1359-1363). -/
def onSegment (a b c : Pt) : Bool :=
  decide (min a.1 c.1 - 1/1000000 ≤ b.1) && decide (b.1 ≤ max a.1 c.1 + 1/1000000) &&
    decide (min a.2 c.2 - 1/1000000 ≤ b.2) && decide (b.2 ≤ max a.2 c.2 + 1/1000000)

/-- `_segments_intersect` (lines 1349-1381). -/
def segmentsIntersect (p1 p2 q1 q2 : Pt) : Bool :=
  let o1 := orient2d p1 p2 q1
  let o2 := orient2d p1 p2 q2
  let o3 := orient2d q1 q2 p1
  let o4 := orient2d q1 q2 p2
  let tol : ℚ := 1/1000000
  if ((o1 > tol ∧ o2 < -tol) ∨ (o1 < -tol ∧ o2 > tol)) ∧
      ((o3 > tol ∧ o4 < -tol) ∨ (o3 < -tol ∧ o4 > tol)) then true
  else if |o1| ≤ tol ∧ onSegment p1 q1 p2 then true
  else if |o2| ≤ tol ∧ onSegment p1 q2 p2 then true
  else if |o3| ≤ tol ∧ onSegment q1 p1 q2 then true
  else if |o4| ≤ tol ∧ onSegment q1 p2 q2 then true
  else false

/-- Consecutive point pairs of a polyline (`zip(points, points[1:])`). -/
def segPairs (pts : List Pt) : List (Pt × Pt) := pts.zip pts.tail

/-- `_paths_cross` (lines 1313-1324). -/
def pathsCross (aPts bPts : List Pt) : Bool :=
  (segPairs aPts).any fun sa => (segPairs bPts).any fun sb =>
    !segmentsShareEndpoint sa.1 sa.2 sb.1 sb.2 && segmentsIntersect sa.1 sa.2 sb.1 sb.2

/-- A previously drawn edge: sampled polyline plus its endpoints. -/
structure DrawnPath where
  points : List Pt
  pstart : Pt
  pstop : Pt
deriving DecidableEq

/-- `_path_intersects` (lines 1284-1296). -/
def pathIntersects (pts : List Pt) (existing : List DrawnPath) (s e : Pt) : Bool :=
  existing.any fun info =>
    !sharesEndpoint s e info.pstart info.pstop && pathsCross pts info.points

/-- `_sample_edge_points` (lines 1265-1282): sample the cubic at uniform steps. -/
def sampleEdgePoints (s cp1 cp2 e : Pt) (steps : ℕ) : List Pt :=
  let n := if steps < 2 then 2 else steps
  (List.range (n+1)).map fun i =>
    let t : ℚ := (i : ℚ) / (n : ℚ)
    let mt : ℚ := 1 - t
    (mt^3 * s.1 + 3*mt^2*t*cp1.1 + 3*mt*t^2*cp2.1 + t^3*e.1,
     mt^3 * s.2 + 3*mt^2*t*cp1.2 + 3*mt*t^2*cp2.2 + t^3*e.2)

/-- `_edge_offset_candidates` (lines 1256-1263): base plus the fixed step
sequence, dropping a candidate equal (within 1e-6) to its predecessor. -/
def edgeOffsetCandidates (base : ℚ) : List ℚ :=
  ([0, 20, -20, 40, -40, 60, -60, 80, -80] : List ℚ).foldl
    (fun offsets step =>
      if offsets.isEmpty || decide (|offsets.getLastD 0 - (base + step)| > 1/1000000)
      then offsets ++ [base + step] else offsets) []

/-- Acceptance test of one candidate offset inside `_render_edge`. -/
def candidateOk (cpf : ℚ → Pt × Pt) (s e : Pt) (drawn : List DrawnPath) (o : ℚ) : Bool :=
  !pathIntersects (sampleEdgePoints s (cpf o).1 (cpf o).2 e 32) drawn s e

/-- The `for offset in candidates: ... break` loop of `_render_edge` (lines 1232-1238). -/
def edgeCandidateLoop (cpf : ℚ → Pt × Pt) (s e : Pt) (drawn : List DrawnPath) :
    List ℚ → Option (List Pt × ℚ)
  | [] => none
  | o :: rest =>
      let pts := sampleEdgePoints s (cpf o).1 (cpf o).2 e 32
      if pathIntersects pts drawn s e then edgeCandidateLoop cpf s e drawn rest
      else some (pts, o)

/-- `_render_edge` (lines 1215-1254), abstracted over the control-point
computation: candidate search, unconditional fallback to the last candidate,
and the write-back into the edge-offset memory keyed by `(parent, child)`. -/
def renderEdgeModel (cpf : ℚ → Pt × Pt) (s e : Pt) (drawn : List DrawnPath)
    (offsets : List ((ℕ × ℕ) × ℚ)) (pid cid : ℕ) :
    List ((ℕ × ℕ) × ℚ) × List DrawnPath :=
  let base := (dget offsets (pid, cid)).getD 0
  let candidates := edgeOffsetCandidates base
  let chosen := match edgeCandidateLoop cpf s e drawn candidates with
    | some r => r
    | none =>
        let fo := candidates.getLastD base
        (sampleEdgePoints s (cpf fo).1 (cpf fo).2 e 32, fo)
  (dset offsets (pid, cid) chosen.2, drawn ++ [⟨chosen.1, s, e⟩])

/-! ### Symmetric position sequence (src/MindMap.py lines 778-795) -/
/-- The `while len(positions) < count` loop of `_symmetrical_positions`:
append `[-offset, offset]` pairs, stepping the offset by 1, until the length
reaches `count`. -/
def extendSym (count : ℕ) (positions : List ℚ) (offset : ℚ) : List ℚ :=
  if positions.length < count then
    extendSym count (positions ++ [-offset, offset]) (offset + 1)
  else positions
termination_by count - positions.length
decreasing_by simp only [List.length_append, List.length_cons, List.length_nil]; omega

/-- `_symmetrical_positions` (lines 778-795): even counts start the pairs at
0.5, odd counts start with `[0]` and pairs at 1; truncate and sort ascending. -/
def symmetricalPositions (count : ℕ) : List ℚ :=
  if count = 0 then []
  else if count % 2 = 0 then ((extendSym count [] (1/2)).take count).insertionSort (· ≤ ·)
  else ((extendSym count [0] 1).take count).insertionSort (· ≤ ·)

/-- The pair blocks `[-offset, offset], [-(offset+1), offset+1], ...` appended
by the loop. -/
def pairsSeq (offset : ℚ) (m : ℕ) : List ℚ :=
  (List.range m).flatMap fun i : ℕ => [-(offset + (i : ℚ)), offset + (i : ℚ)]

/-- Closed form of the sorted symmetric sequence of length `L`: the values
`k - (L-1)/2` for `k = 0, ..., L-1`.  For even `L` these are
`±0.5, ±1.5, ...`, for odd `L` they are `0, ±1, ±2, ...`, sorted ascending. -/
def targetList (L : ℕ) : List ℚ :=
  (List.range L).map fun k : ℕ => (k : ℚ) - ((L : ℚ) - 1) / 2

/-! ### Layout engine (src/MindMap.py lines 909-962, 1657-1685)

`_assign_directions` and `_compute_depths` contain `while` loops over a
worklist fed by the children lists; on cyclic children data these loops run
forever, so both are modelled with an explicit fuel argument.  The outer
`Option` is `none` when the fuel runs out; the inner `Option` is `none` when a
dict access would raise `KeyError`. -/
/-- A slot-assignment entry `(parent_slot, ordinal, nid, parent_id)` as built
in `_compute_vertical_slots` (line 935). -/
abbrev Entry := ℚ × ℕ × ℕ × Option ℕ

/-- Python `sorted(entries, key=lambda item: (item[0], item[1]))`: the stable
sort is realised by `insertionSort` with the reflexive lexicographic
comparison on `(parent_slot, ordinal)`. -/
def entryLess (e f : Entry) : Prop :=
  e.1 < f.1 ∨ (e.1 = f.1 ∧ e.2.1 ≤ f.2.1)

instance entryLessDec : DecidableRel entryLess := fun e f => by
  unfold entryLess
  infer_instance

/-- Blend weight of `assign` (line 953): 0 when the parent is `None` or the
root, 0.25 otherwise. -/
def entryWeight (rootId : ℕ) (e : Entry) : ℚ :=
  if e.2.2.2 = none ∨ e.2.2.2 = some rootId then 0 else 1/4

/-- The inner `assign` of `_compute_vertical_slots` (lines 946-955), returning
the `(nid, slot)` writes it performs in order. -/
def bucketAssignments (rootId : ℕ) (entries : List Entry) (positions : List ℚ) :
    List (ℕ × ℚ) :=
  if entries.isEmpty then []
  else
    (entries.insertionSort entryLess).enum.map fun ie =>
      (ie.2.2.2.1,
        (if positions.length = 0 then 0
         else positions.getD (min ie.1 (positions.length - 1)) 0) *
            (1 - entryWeight rootId ie.2)
          + ie.2.1 * entryWeight rootId ie.2)

/-- `levels.setdefault(depth, []).append(nid)` over `depths.items()` (lines 916-918). -/
def levelsOf (deps : List (ℕ × ℕ)) : List (ℕ × List ℕ) :=
  deps.foldl (fun lv p =>
    match dget lv p.2 with
    | some l => dset lv p.2 (l ++ [p.1])
    | none => lv ++ [(p.2, [p.1])]) []

/-- `max(levels.keys(), default=0)` (line 919). -/
def maxKey (lv : List (ℕ × List ℕ)) : ℕ := (lv.map Prod.fst).foldl max 0

/-- One node of a level: its direction bucket tag and entry (lines 927-941).
`self.nodes[parent_id]` can raise `KeyError`, hence `Option`; a failing
`children.index` (`ValueError`) yields ordinal 0. -/
def levelEntry (ws : WS) (dirs : List (ℕ × ℤ)) (slots : List (ℕ × ℚ)) (nid : ℕ) :
    Option (ℤ × Entry) :=
  let parentId := parentOf ws.parent nid
  let parentSlot := (parentId.bind fun p => dget slots p).getD 0
  match parentId with
  | none => some ((dget dirs nid).getD 0, (parentSlot, 0, nid, none))
  | some p =>
      match dget ws.nodes p with
      | none => none
      | some nd =>
          some ((dget dirs nid).getD ((dget dirs p).getD 0),
            (parentSlot, (nd.children.findIdx? (fun c => c == nid)).getD 0, nid, some p))

/-- Apply the `slots[nid] = slot` writes of one `assign` call in order. -/
def applyWrites (slots : List (ℕ × ℚ)) (writes : List (ℕ × ℚ)) : List (ℕ × ℚ) :=
  writes.foldl (fun s w => dset s w.1 w.2) slots

/-- One iteration of `for depth in range(1, max_depth + 1)` (lines 920-959). -/
def slotsLevelStep (ws : WS) (rootId : ℕ) (dirs : List (ℕ × ℤ)) (levels : List (ℕ × List ℕ))
    (acc : Option (List (ℕ × ℚ))) (i : ℕ) : Option (List (ℕ × ℚ)) :=
  match acc with
  | none => none
  | some slots =>
      let nodesAt := (dget levels (i+1)).getD []
      if nodesAt.isEmpty then some slots
      else
        match nodesAt.mapM (levelEntry ws dirs slots) with
        | none => none
        | some des =>
            let left := (des.filter fun de => decide (de.1 < 0)).map Prod.snd
            let right := (des.filter fun de => decide (de.1 > 0)).map Prod.snd
            let centre := (des.filter fun de => decide (de.1 = 0)).map Prod.snd
            let sidePositions := symmetricalPositions (max left.length right.length)
            let centrePositions := symmetricalPositions centre.length
            some (applyWrites (applyWrites (applyWrites slots
              (bucketAssignments rootId left sidePositions))
              (bucketAssignments rootId right sidePositions))
              (bucketAssignments rootId centre centrePositions))

/-- `_compute_vertical_slots` (lines 909-962). -/
def computeVerticalSlotsF (ws : WS) (rootId : ℕ) (dirs : List (ℕ × ℤ))
    (deps : List (ℕ × ℕ)) : Option (List (ℕ × ℚ)) :=
  let levels := levelsOf deps
  match (List.range (maxKey levels)).foldl (slotsLevelStep ws rootId dirs levels)
      (some [(rootId, 0)]) with
  | none => none
  | some slots =>
      some (ws.nodes.foldl (fun s p =>
        if (dget s p.1).isSome then s else s ++ [(p.1, (0:ℚ))]) slots)

/-- The `while queue` loop of `_assign_directions` (lines 1663-1668).  The
queue pops from the front (`queue.pop(0)`). -/
def dirsLoopF (nodes : List (ℕ × NodeData)) :
    ℕ → List (ℕ × ℤ) → List ℕ → Option (Option (List (ℕ × ℤ)))
  | 0, _, _ => none
  | _+1, dirs, [] => some (some dirs)
  | fuel+1, dirs, nid :: queue =>
      match dget nodes nid with
      | none => some none
      | some nd =>
          let direction := (dget dirs nid).getD 1
          let upd := nd.children.foldl
            (fun (p : List (ℕ × ℤ) × List ℕ) c => (dset p.1 c direction, p.2 ++ [c]))
            (dirs, queue)
          dirsLoopF nodes fuel upd.1 upd.2

/-- `_assign_directions` (lines 1657-1671). -/
def assignDirectionsF (ws : WS) (fuel : ℕ) (rootId : ℕ) : Option (Option (List (ℕ × ℤ))) :=
  match dget ws.nodes rootId with
  | none => some none
  | some rootNd =>
      let dirs0 := rootNd.children.enum.foldl
        (fun d ic => dset d ic.2 (if ic.1 % 2 = 0 then (-1 : ℤ) else 1)) [(rootId, 0)]
      match dirsLoopF ws.nodes fuel dirs0 rootNd.children with
      | none => none
      | some none => some none
      | some (some dirs) =>
          some (some (ws.nodes.foldl (fun d p =>
            if (dget d p.1).isSome then d
            else dset d p.1 (if p.1 = rootId then (0 : ℤ) else 1)) dirs))

/-- The `while stack` loop of `_compute_depths` (lines 1675-1680).  Python
pops from the end of the stack; the model keeps the stack reversed, so the
pop is the head and appending a child is a cons. -/
def depthsLoopF (nodes : List (ℕ × NodeData)) :
    ℕ → List (ℕ × ℕ) → List ℕ → Option (Option (List (ℕ × ℕ)))
  | 0, _, _ => none
  | _+1, depths, [] => some (some depths)
  | fuel+1, depths, nid :: rest =>
      match dget nodes nid with
      | none => some none
      | some nd =>
          match nd.children.foldl
            (fun (p : Option (List (ℕ × ℕ) × List ℕ)) c =>
              match p with
              | none => none
              | some q =>
                  match dget q.1 nid with
                  | none => none
                  | some dn => some (dset q.1 c (dn + 1), c :: q.2))
            (some (depths, rest)) with
          | none => some none
          | some upd => depthsLoopF nodes fuel upd.1 upd.2

/-- `_compute_depths` (lines 1673-1685). -/
def computeDepthsF (ws : WS) (fuel : ℕ) (rootId : ℕ) : Option (Option (List (ℕ × ℕ))) :=
  match depthsLoopF ws.nodes fuel [(rootId, 0)] [rootId] with
  | none => none
  | some none => some none
  | some (some depths) =>
      some (some (ws.nodes.foldl (fun d p =>
        if (dget d p.1).isSome then d
        else
          match parentOf ws.parent p.1 with
          | some q => dset d p.1 ((dget d q).getD 0 + 1)
          | none => dset d p.1 0) depths))

/-- A concrete workspace: root 1 with the three children `[2, 3, 4]`. -/
def wsThree : WS :=
  { nodes := [(1, ⟨"Root", 0, 0, [2, 3, 4], some "#B9C2FF", true, 160, 56⟩),
              (2, ⟨"A", 300, 0, [], some "#FFB3BE", true, 160, 56⟩),
              (3, ⟨"B", 300, 100, [], some "#FFF49A", true, 160, 56⟩),
              (4, ⟨"C", 300, 200, [], some "#C6FFB0", true, 160, 56⟩)],
    parent := [(1, none), (2, some 1), (3, some 1), (4, some 1)],
    rootId := some 1, nextId := 5, scale := 1, offsetX := 0, offsetY := 0,
    paletteIndex := 4 }

/-! ### Node and tree mutations (src/MindMap.py lines 555-600, 684-697, 765-776) -/
/-- `_default_fill_for_depth` (lines 760-763). -/
def defaultFillForDepth (depth : ℕ) : String :=
  if PALETTE_COLORS.isEmpty then "white"
  else PALETTE_COLORS.getD (depth % PALETTE_COLORS.length) "white"

/-- The `while True` walk of `_node_depth` (lines 765-776) with fuel.  Every
iteration that continues adds a fresh parent-map key to the visited set, so
`parent.length + 1` steps always suffice. -/
def nodeDepthGo (parent : List (ℕ × Option ℕ)) : ℕ → ℕ → List ℕ → ℕ → ℕ
  | 0, _, _, depth => depth
  | fuel+1, current, visited, depth =>
      match parentOf parent current with
      | none => depth
      | some pid =>
          if pid ∈ visited then depth
          else nodeDepthGo parent fuel pid (current :: visited) (depth + 1)

/-- `_node_depth` (lines 765-776). -/
def nodeDepth (parent : List (ℕ × Option ℕ)) (nid : ℕ) : ℕ :=
  nodeDepthGo parent (parent.length + 1) nid [] 0

/-- `_next_auto_color` (lines 555-560): next palette color, advancing the
per-workspace palette cursor. -/
def nextAutoColor (ws : WS) : String × WS :=
  (PALETTE_COLORS.getD (ws.paletteIndex % PALETTE_COLORS.length) "#ffffff",
   { ws with paletteIndex := ws.paletteIndex + 1 })

/-- `_set_root` (lines 571-574): point `root_id` at the node and clear its
parent pointer; the node is not removed from its old parent's children list. -/
def setRootWS (ws : WS) (nid : ℕ) : WS :=
  { ws with rootId := some nid, parent := dset ws.parent nid none }

/-- `_create_node` (lines 576-600).  The node is created with `custom: True`
(line 588).  `_update_node_size` measures the text with the external font
engine; the raw measured width/height enter as parameters and are floored at
the default size exactly as in lines 754-755.  The canvas drawing and the
redraw have no effect on the modelled state. -/
def createNode (ws : WS) (text : String) (x y : ℚ) (measuredW measuredH : ℚ) : WS × ℕ :=
  let pos := findFreePosition ws.nodes x y
  let nid := ws.nextId
  let ws1 := { ws with nextId := ws.nextId + 1 }
  let fc := nextAutoColor ws1
  let nd : NodeData := ⟨text, pos.1, pos.2, [], some fc.1, true, NODE_W, NODE_H⟩
  let ws2 :=
    { fc.2 with
        nodes := dset fc.2.nodes nid nd
        parent := dset fc.2.parent nid none }
  let nd2 := { nd with w := max measuredW NODE_W, h := max measuredH NODE_H }
  let ws3 := { ws2 with nodes := dset ws2.nodes nid nd2 }
  if ws3.rootId = (none : Option ℕ) then (setRootWS ws3 nid, nid) else (ws3, nid)

/-- First statement group of `_add_edge` (lines 685-687): remove the child
from the children list of its current parent. -/
def detachChild (ws : WS) (childId : ℕ) : Option WS :=
  match parentOf ws.parent childId with
  | some cp =>
      match dget ws.nodes cp with
      | none => none
      | some nd =>
          if childId ∈ nd.children then
            some { ws with
              nodes := dset ws.nodes cp { nd with children := nd.children.erase childId } }
          else some ws
  | none => some ws

/-- Remaining statements of `_add_edge` (lines 688-697): repoint the parent
pointer, append to the new parent, promote the parent to root when the child
was the root, and reset a non-custom fill to the depth color. -/
def attachChild (ws1 : WS) (parentId childId : ℕ) : Option WS :=
  match dget ws1.nodes parentId with
  | none => none
  | some pnd =>
      let ws2 := { ws1 with parent := dset ws1.parent childId (some parentId) }
      let ws3 :=
        if childId ∈ pnd.children then ws2
        else
          { ws2 with
              nodes := dset ws2.nodes parentId
                { pnd with children := pnd.children ++ [childId] } }
      let ws4 := if ws3.rootId = some childId then setRootWS ws3 parentId else ws3
      match dget ws4.nodes childId with
      | none => none
      | some cnd =>
          if cnd.custom then some ws4
          else
            some
              { ws4 with
                  nodes := dset ws4.nodes childId
                    { cnd with
                        fill := some (defaultFillForDepth
                          (nodeDepth ws4.parent childId)) } }

/-- `_add_edge` (lines 684-697).  Dict accesses that would raise `KeyError`
yield `none`. -/
def addEdge (ws : WS) (parentId childId : ℕ) : Option WS :=
  match detachChild ws childId with
  | none => none
  | some ws1 => attachChild ws1 parentId childId

/-- Body of the placement loop of `auto_layout` (lines 1701-1716), applied to
one `(nid, node)` entry: rewrite `x` and `y` from direction, depth and slot,
and reset a non-custom fill to the depth color.  `root_slot` is inlined as
`(dget slots rootId).getD 0`. -/
def layoutNodeUpdate (dirs : List (ℕ × ℤ)) (deps : List (ℕ × ℕ)) (slots : List (ℕ × ℚ))
    (rootId : ℕ) (baseX baseY : ℚ) (pnd : ℕ × NodeData) : ℕ × NodeData :=
  (pnd.1,
    { pnd.2 with
        x :=
          if (dget dirs pnd.1).getD (if pnd.1 ≠ rootId then 1 else 0) < 0 then
            baseX - ((dget deps pnd.1).getD 0 : ℚ) * (NODE_W + HORIZ_GAP)
          else if (dget dirs pnd.1).getD (if pnd.1 ≠ rootId then 1 else 0) > 0 then
            baseX + ((dget deps pnd.1).getD 0 : ℚ) * (NODE_W + HORIZ_GAP)
          else baseX
        y := baseY + ((dget slots pnd.1).getD ((dget slots rootId).getD 0) -
          (dget slots rootId).getD 0) * (NODE_H + VERT_GAP)
        fill :=
          if pnd.2.custom then pnd.2.fill
          else some (defaultFillForDepth ((dget deps pnd.1).getD 0)) })

/-- `auto_layout` (lines 1687-1720).  The viewport center enters as
`(baseX, baseY)`; the final `self.redraw()` only repaints the canvas and
rewrites the edge-offset memory (modelled separately by `renderEdgeModel`),
touching none of the fields below.  `none` means the layout did not complete
normally (unbounded traversal on cyclic data, or a `KeyError`). -/
def autoLayoutF (fuel : ℕ) (ws : WS) (baseX baseY : ℚ) : Option WS :=
  if ws.nodes.isEmpty then some ws
  else
    let rootId :=
      match ws.rootId with
      | some r => if r = 0 then (ws.nodes.map Prod.fst).headD 0 else r
      | none => (ws.nodes.map Prod.fst).headD 0
    match assignDirectionsF ws fuel rootId with
    | none => none
    | some none => none
    | some (some dirs) =>
        match computeDepthsF ws fuel rootId with
        | none => none
        | some none => none
        | some (some deps) =>
            match computeVerticalSlotsF ws rootId dirs deps with
            | none => none
            | some slots =>
                some
                  { ws with
                      nodes := ws.nodes.map
                        (layoutNodeUpdate dirs deps slots rootId baseX baseY) }

/-! ### Tree invariant (spec section 3) -/
/-- Bounded universal quantification over an optional value, used to keep the
invariant decidable. -/
def OptForall {α : Type} (o : Option α) (P : α → Prop) : Prop :=
  ∀ a, o = some a → P a

instance instOptForallDec {α : Type} (o : Option α) (P : α → Prop) [DecidablePred P] :
    Decidable (OptForall o P) :=
  match o with
  | none => isTrue (fun _ h => nomatch h)
  | some a =>
      if h : P a then isTrue (fun b hb => by cases hb; exact h)
      else isFalse (fun hall => h (hall a rfl))

/-- Structural well-formedness plus the tree invariant of spec section 3:
unique keys, every node has a parent entry, parent pointers and children
lists stay inside the node set, children lists are duplicate-free, a node
appears in a children list exactly when its parent pointer says so, and the
root is the unique parentless node. -/
def Inv (ws : WS) : Prop :=
  (nodeIds ws).Nodup ∧
  (ws.parent.map Prod.fst).Nodup ∧
  (∀ n ∈ nodeIds ws, (dget ws.parent n).isSome = true) ∧
  (∀ n ∈ nodeIds ws, OptForall (parentOf ws.parent n) (fun q => q ∈ nodeIds ws)) ∧
  (∀ n ∈ nodeIds ws, (childrenOfD ws n).Nodup) ∧
  (∀ n ∈ nodeIds ws, ∀ c ∈ childrenOfD ws n, c ∈ nodeIds ws) ∧
  (∀ p ∈ nodeIds ws, ∀ c ∈ nodeIds ws,
    (c ∈ childrenOfD ws p ↔ parentOf ws.parent c = some p)) ∧
  (ws.rootId = none → ws.nodes = []) ∧
  OptForall ws.rootId (fun r => r ∈ nodeIds ws ∧ parentOf ws.parent r = none) ∧
  (∀ n ∈ nodeIds ws, parentOf ws.parent n = none → ws.rootId = some n)

instance decInv (ws : WS) : Decidable (Inv ws) := by
  unfold Inv
  infer_instance

/-- The invariant exactly as claim C5 states it: on a non-empty node set,
exactly one node has no parent, and a node appears in a children list
exactly when its parent pointer agrees. -/
def ClaimInv (ws : WS) : Prop :=
  ws.nodes ≠ [] →
    ((nodeIds ws).filter (fun n => decide (parentOf ws.parent n = none))).length = 1 ∧
    (∀ p ∈ nodeIds ws, ∀ c ∈ nodeIds ws,
      (c ∈ childrenOfD ws p ↔ parentOf ws.parent c = some p))

instance decClaimInv (ws : WS) : Decidable (ClaimInv ws) := by
  unfold ClaimInv
  infer_instance

/-- A consistent two-node workspace: root 1 with the single child 2. -/
def wsPair : WS :=
  { nodes := [(1, ⟨"Root", 0, 0, [2], some "#B9C2FF", true, 160, 56⟩),
              (2, ⟨"Child", 300, 0, [], some "#FFB3BE", true, 160, 56⟩)],
    parent := [(1, none), (2, some 1)], rootId := some 1, nextId := 3,
    scale := 1, offsetX := 0, offsetY := 0, paletteIndex := 2 }

/-- A consistent three-node workspace: root 1 with the children 2 and 3. -/
def wsTri : WS :=
  { nodes := [(1, ⟨"Root", 0, 0, [2, 3], some "#B9C2FF", true, 160, 56⟩),
              (2, ⟨"A", 300, 0, [], some "#FFB3BE", true, 160, 56⟩),
              (3, ⟨"B", 300, 100, [], some "#FFF49A", true, 160, 56⟩)],
    parent := [(1, none), (2, some 1), (3, some 1)], rootId := some 1, nextId := 4,
    scale := 1, offsetX := 0, offsetY := 0, paletteIndex := 3 }

/-! ### Persistence load (src/MindMap.py lines 1531-1589, 699-702) -/
/-- One raw persisted node dict: every field may be absent (`nd.get(...)`). -/
structure RawNode where
  text : Option String
  x : Option ℚ
  y : Option ℚ
  children : Option (List ℕ)
  fill : Option (Option String)
  custom : Option Bool
deriving DecidableEq

/-- A raw persisted document: the `data` dict handed to the load routine. -/
structure RawDoc where
  nodes : List (ℕ × RawNode)
  root : Option ℕ
  next_id : Option ℕ
deriving DecidableEq

/-- `_load_data_into_current_workspace` (lines 1531-1581) up to but not
including the `redraw()` call: per-field defaults, parents first reset to
`None` for every loaded id and then overwritten from every children list —
including child ids that name no loaded node — root fallback to the first id
when the stored root is absent or unknown, and the next-id floor `max_id + 1`. -/
def loadData (doc : RawDoc) : WS :=
  let nodes : List (ℕ × NodeData) := doc.nodes.foldl
    (fun acc p => dset acc p.1
      ⟨p.2.text.getD "", p.2.x.getD 0, p.2.y.getD 0, p.2.children.getD [],
        p.2.fill.getD none, p.2.custom.getD false, NODE_W, NODE_H⟩) []
  let maxId : ℕ := (doc.nodes.map Prod.fst).foldl max 0
  let parent0 : List (ℕ × Option ℕ) := doc.nodes.foldl
    (fun acc p => dset acc p.1 (none : Option ℕ)) []
  let parent : List (ℕ × Option ℕ) := nodes.foldl
    (fun acc p => p.2.children.foldl (fun acc2 cid => dset acc2 cid (some p.1)) acc)
    parent0
  let ids : List ℕ := nodes.map Prod.fst
  let rootId : Option ℕ :=
    match doc.root with
    | some r => if r ∈ ids then some r else ids.head?
    | none => ids.head?
  { nodes := nodes
    parent := parent
    rootId := rootId
    nextId := max (doc.next_id.getD (maxId + 1)) (maxId + 1)
    scale := 1
    offsetX := 0
    offsetY := 0
    paletteIndex := nodes.length }

/-- `_edges` (lines 699-702): every (parent, child) pair a redraw iterates. -/
def edgesList (ws : WS) : List (ℕ × ℕ) :=
  ws.nodes.flatMap fun p => p.2.children.map fun c => (p.1, c)

/-! ### Subtree traversal and cyclic inputs (src/MindMap.py lines 1383-1392, 1673-1685) -/
/-- The recursive `dfs` of `_collect_subtree` (lines 1383-1392) with fuel:
outer `none` means the recursion is still running at every depth bound (the
Python recursion never returns), inner `none` a `KeyError` on a missing node. -/
def collectSubtreeF (nodes : List (ℕ × NodeData)) :
    ℕ → ℕ → List ℕ → Option (Option (List ℕ))
  | 0, _, _ => none
  | fuel+1, nid, acc =>
      match dget nodes nid with
      | none => some none
      | some nd =>
          nd.children.foldl
            (fun st c =>
              match st with
              | none => none
              | some none => some none
              | some (some l) => collectSubtreeF nodes fuel c l)
            (some (some (acc ++ [nid])))

/-- A cyclic workspace exactly as the load routine builds it from a malformed
file in which node 1 lists 2 as its child and node 2 lists 1. -/
def wsCyc : WS :=
  loadData ⟨[(1, ⟨some "A", none, none, some [2], none, none⟩),
             (2, ⟨some "B", none, none, some [1], none, none⟩)], some 1, none⟩

/-! ### Subtree deletion (src/MindMap.py lines 443-467) -/

/-- Python `dict.pop(key, None)`: drop the entry of a key, no error when it is
absent. -/
def dpop {α : Type} (d : List (ℕ × α)) (k : ℕ) : List (ℕ × α) :=
  d.filter fun p => p.1 != k

/-- One iteration of the deletion loop of `delete_selected` (lines 453-461),
acting on the `(nodes, parent)` pair: set the parent pointer of every child of
`cid` to `None`, remove `cid` from its own parent's children list (skipped
when the pointer is `None` by then), and pop `cid` from both dicts.  `none` is
a `KeyError` (`self.nodes[cid]`, or `self.nodes[parent_id]` when the stored
parent id names no node). -/
def deleteStep (st : List (ℕ × NodeData) × List (ℕ × Option ℕ)) (cid : ℕ) :
    Option (List (ℕ × NodeData) × List (ℕ × Option ℕ)) :=
  match dget st.1 cid with
  | none => none
  | some nd =>
      let parent1 := nd.children.foldl (fun pc ch => dset pc ch none) st.2
      match (dget parent1 cid).getD none with
      | some pid =>
          match dget st.1 pid with
          | none => none
          | some pnd =>
              if cid ∈ pnd.children then
                some (dpop (dset st.1 pid
                  { pnd with children := pnd.children.erase cid }) cid, dpop parent1 cid)
              else some (dpop st.1 cid, dpop parent1 cid)
      | none => some (dpop st.1 cid, dpop parent1 cid)

/-- `delete_selected` (lines 443-467), state part, for a selected node `nid`:
collect the subtree (line 452), run the deletion loop, then reassign the root
to the first remaining node when the old root was among the deleted ids
(lines 462-463; a `None` root is never in the id list, so it stays `None`).
Outer `none`: the subtree collection never finishes (cyclic children lists);
inner `none`: a `KeyError` during collection or deletion. -/
def deleteSelectedF (ws : WS) (fuel : ℕ) (nid : ℕ) : Option (Option WS) :=
  match collectSubtreeF ws.nodes fuel nid [] with
  | none => none
  | some none => some none
  | some (some ids) =>
      match ids.foldl (fun st cid =>
          match st with
          | none => none
          | some s => deleteStep s cid) (some (ws.nodes, ws.parent)) with
      | none => some none
      | some s =>
          some (some { ws with
            nodes := s.1
            parent := s.2
            rootId :=
              match ws.rootId with
              | some r => if r ∈ ids then (s.1.map Prod.fst).head? else some r
              | none => none })

/-- A loadable workspace whose parent pointers contain a two-cycle (nodes 2
and 3) disconnected from the root 1: the load routine accepts the file, the
invariant holds (exactly one parentless node, bidirectional consistency), yet
deleting the root leaves no parentless node. -/
def wsRootCycle : WS :=
  loadData ⟨[(1, ⟨some "Root", none, none, none, none, none⟩),
             (2, ⟨some "A", none, none, some [3], none, none⟩),
             (3, ⟨some "B", none, none, some [2], none, none⟩)], some 1, none⟩

/-- The workspace `delete_selected` leaves behind after deleting the root of
`wsRootCycle`: the root is reassigned to node 2 (`next(iter(self.nodes))`),
which still has a parent. -/
def wsRootCycleDel : WS :=
  { nodes := [(2, ⟨"A", 0, 0, [3], none, false, 160, 56⟩),
              (3, ⟨"B", 0, 0, [2], none, false, 160, 56⟩)],
    parent := [(2, some 3), (3, some 2)], rootId := some 2, nextId := 4,
    scale := 1, offsetX := 0, offsetY := 0, paletteIndex := 3 }

/-! ### Ellipse exit point (src/MindMap.py lines 704-723)

`_edge_exit_point` works in real arithmetic (`math.sqrt`), so this part of the
model lives in `ℝ`.  Note the code derives the semi-axes from the `NODE_W` and
`NODE_H` constants, not from the node's cached `w`/`h`. -/
/-- `a = max(NODE_W * self.ws.scale / 2, 1.0)` (line 706). -/
noncomputable def exitA (scale : ℝ) : ℝ := max ((NODE_W : ℝ) * scale / 2) 1

/-- `b = max(NODE_H * self.ws.scale / 2, 1.0)` (line 707). -/
noncomputable def exitB (scale : ℝ) : ℝ := max ((NODE_H : ℝ) * scale / 2) 1

/-- The `(dx, dy)` direction after the near-coincidence guard (lines 708-711):
within `1e-4` of coincident centers it is replaced by `(0, b)` — straight down
in canvas coordinates. -/
noncomputable def exitDir (scale cx cy tx ty : ℝ) : ℝ × ℝ :=
  if |tx - cx| < 1 / 10000 ∧ |ty - cy| < 1 / 10000 then (0, exitB scale)
  else (tx - cx, ty - cy)

/-- The exit point before the outward margin (lines 712-717): scale the
direction by `1 / factor`, `factor = sqrt(dx²/a² + dy²/b²)` (replaced by 1 when
zero). -/
noncomputable def edgeExitCore (scale cx cy tx ty : ℝ) : ℝ × ℝ :=
  let d := exitDir scale cx cy tx ty
  let f0 := Real.sqrt (d.1 * d.1 / (exitA scale * exitA scale) +
    d.2 * d.2 / (exitB scale * exitB scale))
  let f := if f0 = 0 then 1 else f0
  (cx + d.1 * (1 / f), cy + d.2 * (1 / f))

/-- `_edge_exit_point` (lines 704-723): the core point pushed outward by
`max(1.5, scale * 1.2)` along the normalized direction (`or 1.0` on a zero
length). -/
noncomputable def edgeExitPoint (scale cx cy tx ty : ℝ) : ℝ × ℝ :=
  let s := edgeExitCore scale cx cy tx ty
  let v := (s.1 - cx, s.2 - cy)
  let len0 := Real.sqrt (v.1 * v.1 + v.2 * v.2)
  let len := if len0 = 0 then 1 else len0
  let margin := max (3 / 2) (scale * (6 / 5))
  (s.1 + v.1 / len * margin, s.2 + v.2 / len * margin)

/-- The spec's ellipse, stated from its words: the point lies on the ellipse
around `(cx, cy)` whose semi-axes are half the NODE's width `w` and height `h`
in screen units, scaled by the zoom factor.  Kept for comparison with the
code-derived `exitA`/`exitB`, which use the global constants instead. -/
def onNodeEllipseSpec (w h scale cx cy : ℝ) (p : ℝ × ℝ) : Prop :=
  (p.1 - cx) ^ 2 / (w * scale / 2) ^ 2 + (p.2 - cy) ^ 2 / (h * scale / 2) ^ 2 = 1

/-! ## Theorems -/

theorem dget_dset_self {κ α : Type} [DecidableEq κ] (d : List (κ × α)) (k : κ) (v : α) :
    dget (dset d k v) k = some v := by
  induction d with
  | nil => simp [dget, dset]
  | cons hd tl ih =>
      obtain ⟨k', v'⟩ := hd
      by_cases h : k' = k
      · simp [dget, dset, h]
      · simp [dget, dset, h, ih]

theorem dget_dset_ne {κ α : Type} [DecidableEq κ] (d : List (κ × α)) (k k' : κ) (v : α)
    (h : k' ≠ k) : dget (dset d k v) k' = dget d k' := by
  have h' : k ≠ k' := fun hh => h hh.symm
  induction d with
  | nil => simp [dget, dset, h']
  | cons hd tl ih =>
      obtain ⟨k₀, v₀⟩ := hd
      by_cases hk : k₀ = k
      · subst hk
        simp [dget, dset, h', h]
      · by_cases hk' : k₀ = k'
        · subst hk'
          simp [dget, dset, hk]
        · simp [dget, dset, hk, hk', ih]

theorem keys_dset_of_mem {κ α : Type} [DecidableEq κ] (d : List (κ × α)) (k : κ) (v : α)
    (h : k ∈ d.map Prod.fst) : (dset d k v).map Prod.fst = d.map Prod.fst := by
  induction d with
  | nil => simp at h
  | cons hd tl ih =>
      obtain ⟨k₀, v₀⟩ := hd
      by_cases hk : k₀ = k
      · simp [dset, hk]
      · simp only [List.map_cons, List.mem_cons] at h
        rcases h with h | h
        · exact absurd h.symm hk
        · simp [dset, hk, ih h]

theorem keys_dset_of_not_mem {κ α : Type} [DecidableEq κ] (d : List (κ × α)) (k : κ) (v : α)
    (h : k ∉ d.map Prod.fst) : (dset d k v).map Prod.fst = d.map Prod.fst ++ [k] := by
  induction d with
  | nil => simp [dset]
  | cons hd tl ih =>
      obtain ⟨k₀, v₀⟩ := hd
      simp only [List.map_cons, List.mem_cons] at h
      push_neg at h
      have hne : k₀ ≠ k := fun hh => h.1 hh.symm
      simp [dset, hne, ih h.2]

theorem dget_eq_none_iff {κ α : Type} [DecidableEq κ] (d : List (κ × α)) (k : κ) :
    dget d k = none ↔ k ∉ d.map Prod.fst := by
  induction d with
  | nil => simp [dget]
  | cons hd tl ih =>
      obtain ⟨k₀, v₀⟩ := hd
      by_cases hk : k₀ = k
      · simp [dget, hk]
      · have hne : k ≠ k₀ := fun hh => hk hh.symm
        simp [dget, hk, ih, hne]

theorem dget_isSome_iff {κ α : Type} [DecidableEq κ] (d : List (κ × α)) (k : κ) :
    (dget d k).isSome = true ↔ k ∈ d.map Prod.fst := by
  have h := dget_eq_none_iff d k
  constructor
  · intro hs
    by_contra hmem
    rw [← h] at hmem
    rw [hmem] at hs
    simp at hs
  · intro hmem
    cases hd : dget d k with
    | none => exact absurd (h.mp hd) (fun hf => hf hmem)
    | some v => simp

/-- C6: zoom-to-cursor.  The scale candidate is clamped to `[0.4, 2.5]`; a change
below `1e-3` is a no-op; otherwise the logical coordinate of the screen origin
(via `_from_canvas_point`) is exactly preserved. -/
theorem zoom_to_cursor (ws : WS) (factor : ℚ) (origin : ℚ × ℚ)
    (hpos : 0 < ws.scale) :
    (ZOOM_MIN ≤ zoomNewScale ws factor ∧ zoomNewScale ws factor ≤ ZOOM_MAX) ∧
    (|zoomNewScale ws factor - ws.scale| < 1/1000 → zoomWS ws factor origin = ws) ∧
    (¬ |zoomNewScale ws factor - ws.scale| < 1/1000 →
      fromCanvasPoint (zoomWS ws factor origin) origin.1 origin.2 =
        fromCanvasPoint ws origin.1 origin.2) := by
  have hclamp : ZOOM_MIN ≤ zoomNewScale ws factor ∧ zoomNewScale ws factor ≤ ZOOM_MAX := by
    unfold zoomNewScale ZOOM_MIN ZOOM_MAX
    constructor
    · exact le_max_left _ _
    · exact max_le (by norm_num) (min_le_left _ _)
  refine ⟨hclamp, ?_, ?_⟩
  · intro hsmall
    unfold zoomWS
    rw [if_pos hsmall]
  · intro hbig
    have hold : ws.scale ≠ 0 := ne_of_gt hpos
    have hnewpos : 0 < zoomNewScale ws factor := lt_of_lt_of_le (by norm_num [ZOOM_MIN]) hclamp.1
    have hnew : zoomNewScale ws factor ≠ 0 := ne_of_gt hnewpos
    unfold zoomWS
    rw [if_neg hbig]
    unfold fromCanvasPoint
    simp only [ne_eq, hold, not_false_iff, if_true, if_false]
    rw [if_neg hnew]
    refine Prod.ext ?_ ?_ <;> simp only [] <;> field_simp <;> ring

/-- Witness for C6 at a concrete workspace: scale 1, factor 2, origin (100, 50). -/
theorem zoom_to_cursor_witness :
    (0 : ℚ) < (1 : ℚ) ∧
    (¬ |zoomNewScale ⟨[], [], none, 1, 1, 7, 9, 0⟩ 2 - (1 : ℚ)| < 1/1000) ∧
    fromCanvasPoint (zoomWS ⟨[], [], none, 1, 1, 7, 9, 0⟩ 2 (100, 50)) 100 50 =
      fromCanvasPoint ⟨[], [], none, 1, 1, 7, 9, 0⟩ 100 50 := by
  have hz : ¬ |zoomNewScale ⟨[], [], none, 1, 1, 7, 9, 0⟩ 2 - (1 : ℚ)| < 1/1000 := by
    norm_num [zoomNewScale, ZOOM_MIN, ZOOM_MAX]
  exact ⟨by norm_num, hz,
    (zoom_to_cursor ⟨[], [], none, 1, 1, 7, 9, 0⟩ 2 (100, 50) (by norm_num)).2.2 hz⟩

set_option maxRecDepth 4000 in
theorem searchCells_cheb :
    ∀ c ∈ searchCells, 1 ≤ max c.1.natAbs c.2.natAbs ∧ max c.1.natAbs c.2.natAbs ≤ 8 := by
  decide

/-- C7: with exactly one node at the origin and an occupied candidate, the
finder returns a free point that is the first free cell of the fixed ring
enumeration; the cell has Chebyshev radius between 1 and 8. -/
theorem find_free_position_spec (nid : ℕ) (nd : NodeData) (x y : ℚ)
    (hx0 : nd.x = 0) (hy0 : nd.y = 0)
    (hx : |x| < NODE_W + NODE_MARGIN) (hy : |y| < NODE_H + NODE_MARGIN) :
    isPositionFree [(nid, nd)] (findFreePosition [(nid, nd)] x y).1
      (findFreePosition [(nid, nd)] x y).2 = true ∧
    ∃ c : ℤ × ℤ, c ∈ searchCells ∧
      1 ≤ max c.1.natAbs c.2.natAbs ∧ max c.1.natAbs c.2.natAbs ≤ 8 ∧
      findFreePosition [(nid, nd)] x y =
        (x + (c.1 : ℚ) * (NODE_W + HORIZ_GAP), y + (c.2 : ℚ) * (NODE_H + VERT_GAP)) ∧
      searchCells.find? (fun c =>
        isPositionFree [(nid, nd)] (x + (c.1 : ℚ) * (NODE_W + HORIZ_GAP))
          (y + (c.2 : ℚ) * (NODE_H + VERT_GAP))) = some c := by
  have hocc : isPositionFree [(nid, nd)] x y = false := by
    simp [isPositionFree, hx0, hy0]
    exact ⟨hx, hy⟩
  have hfree2 : ∀ u : ℚ, |u| < NODE_W + NODE_MARGIN →
      ∀ v : ℚ, isPositionFree [(nid, nd)] (u - 2 * (NODE_W + HORIZ_GAP)) v = true := by
    intro u hu v
    have key : NODE_W + NODE_MARGIN ≤ |u - 2 * (NODE_W + HORIZ_GAP)| := by
      have h1 : |(2 : ℚ) * (NODE_W + HORIZ_GAP)| - |u| ≤ |u - 2 * (NODE_W + HORIZ_GAP)| := by
        rw [abs_sub_comm]
        exact abs_sub_abs_le_abs_sub _ _
      have h2 : (NODE_W : ℚ) + NODE_MARGIN ≤ |(2 : ℚ) * (NODE_W + HORIZ_GAP)| - |u| := by
        rw [abs_of_nonneg (by norm_num [NODE_W, HORIZ_GAP])]
        norm_num [NODE_W, HORIZ_GAP, NODE_MARGIN] at hu ⊢
        linarith
      linarith
    have hnotlt : ¬ |u - 2 * (NODE_W + HORIZ_GAP)| < NODE_W + NODE_MARGIN := not_lt.mpr key
    simp [isPositionFree, hx0, hy0, hnotlt]
  set pred := fun c : ℤ × ℤ =>
    isPositionFree [(nid, nd)] (x + (c.1 : ℚ) * (NODE_W + HORIZ_GAP))
      (y + (c.2 : ℚ) * (NODE_H + VERT_GAP)) with hpred
  have hsome : ∃ c, searchCells.find? pred = some c := by
    cases hfind : searchCells.find? pred with
    | some c => exact ⟨c, rfl⟩
    | none =>
        exfalso
        have hall := List.find?_eq_none.mp hfind
        have hmem : ((-2 : ℤ), (-2 : ℤ)) ∈ searchCells := by decide
        have := hall _ hmem
        rw [hpred] at this
        simp only at this
        have hfree := hfree2 x hx (y + ((-2 : ℤ) : ℚ) * (NODE_H + VERT_GAP))
        have harg : x + ((-2 : ℤ) : ℚ) * (NODE_W + HORIZ_GAP) = x - 2 * (NODE_W + HORIZ_GAP) := by
          push_cast
          ring
        rw [harg] at this
        rw [hfree] at this
        simp at this
  obtain ⟨c, hc⟩ := hsome
  have hcmem : c ∈ searchCells := List.mem_of_find?_eq_some hc
  have hcpred : pred c = true := List.find?_some hc
  have hres : findFreePosition [(nid, nd)] x y =
      (x + (c.1 : ℚ) * (NODE_W + HORIZ_GAP), y + (c.2 : ℚ) * (NODE_H + VERT_GAP)) := by
    unfold findFreePosition
    rw [hocc]
    simp only [Bool.false_eq_true, if_false]
    rw [← hpred, hc]
  have hcheb := searchCells_cheb c hcmem
  refine ⟨?_, c, hcmem, hcheb.1, hcheb.2, hres, hc⟩
  rw [hres]
  rw [hpred] at hcpred
  exact hcpred

/-- Witness for C7: single node at the origin, occupied candidate (10, 10). -/
theorem find_free_position_witness :
    isPositionFree [(1, ⟨"Root", 0, 0, [], none, true, 160, 56⟩)]
      (findFreePosition [(1, ⟨"Root", 0, 0, [], none, true, 160, 56⟩)] 10 10).1
      (findFreePosition [(1, ⟨"Root", 0, 0, [], none, true, 160, 56⟩)] 10 10).2 = true := by
  exact (find_free_position_spec 1 ⟨"Root", 0, 0, [], none, true, 160, 56⟩ 10 10 rfl rfl
    (by norm_num [NODE_W, NODE_MARGIN]) (by norm_num [NODE_H, NODE_MARGIN])).1

theorem edgeOffsetCandidates_eq (base : ℚ) :
    edgeOffsetCandidates base =
      [base, base + 20, base - 20, base + 40, base - 40,
       base + 60, base - 60, base + 80, base - 80] := by
  unfold edgeOffsetCandidates
  simp only [List.foldl, List.isEmpty_cons, List.isEmpty_nil, List.getLastD,
    List.getLast, List.nil_append, List.cons_append, Bool.true_or, if_true]
  norm_num [List.getLastD, abs_sub_comm]
  ring_nf
  trivial

theorem edgeCandidateLoop_some (cpf : ℚ → Pt × Pt) (s e : Pt) (drawn : List DrawnPath) :
    ∀ l r, edgeCandidateLoop cpf s e drawn l = some r →
      r.1 = sampleEdgePoints s (cpf r.2).1 (cpf r.2).2 e 32 ∧
      ∃ pre suf, l = pre ++ r.2 :: suf ∧ candidateOk cpf s e drawn r.2 = true ∧
        ∀ c ∈ pre, candidateOk cpf s e drawn c = false := by
  intro l
  induction l with
  | nil => intro r hr; simp [edgeCandidateLoop] at hr
  | cons o rest ih =>
      intro r hr
      unfold edgeCandidateLoop at hr
      by_cases hint : pathIntersects (sampleEdgePoints s (cpf o).1 (cpf o).2 e 32) drawn s e = true
      · rw [if_pos hint] at hr
        obtain ⟨hpts, pre, suf, hsplit, hok, hpre⟩ := ih r hr
        refine ⟨hpts, o :: pre, suf, by simp [hsplit], hok, ?_⟩
        intro c hc
        rcases List.mem_cons.mp hc with hc | hc
        · subst hc
          simp [candidateOk, hint]
        · exact hpre c hc
      · rw [if_neg hint] at hr
        obtain rfl : (sampleEdgePoints s (cpf o).1 (cpf o).2 e 32, o) = r := by
          simpa using hr
        exact ⟨rfl, [], rest, rfl, by simp [candidateOk, hint], by simp⟩

theorem edgeCandidateLoop_none (cpf : ℚ → Pt × Pt) (s e : Pt) (drawn : List DrawnPath) :
    ∀ l, edgeCandidateLoop cpf s e drawn l = none →
      ∀ c ∈ l, candidateOk cpf s e drawn c = false := by
  intro l
  induction l with
  | nil => intro _ c hc; simp at hc
  | cons o rest ih =>
      intro hr c hc
      unfold edgeCandidateLoop at hr
      by_cases hint : pathIntersects (sampleEdgePoints s (cpf o).1 (cpf o).2 e 32) drawn s e = true
      · rw [if_pos hint] at hr
        rcases List.mem_cons.mp hc with hc | hc
        · subst hc
          simp [candidateOk, hint]
        · exact ih hr c hc
      · rw [if_neg hint] at hr
        simp at hr

/-- C2: edge candidate search.  The candidates are exactly
`base, base+20, base-20, ..., base+80, base-80` in that order; the accepted
offset is the first whose sampled polyline passes the crossing test, or
`base - 80` unconditionally when none does; and it is stored in the
edge-offset memory under `(parent, child)`. -/
theorem render_edge_candidate_search (cpf : ℚ → Pt × Pt) (s e : Pt)
    (drawn : List DrawnPath) (offsets : List ((ℕ × ℕ) × ℚ)) (pid cid : ℕ) :
    edgeOffsetCandidates ((dget offsets (pid, cid)).getD 0) =
      [(dget offsets (pid, cid)).getD 0, (dget offsets (pid, cid)).getD 0 + 20,
       (dget offsets (pid, cid)).getD 0 - 20, (dget offsets (pid, cid)).getD 0 + 40,
       (dget offsets (pid, cid)).getD 0 - 40, (dget offsets (pid, cid)).getD 0 + 60,
       (dget offsets (pid, cid)).getD 0 - 60, (dget offsets (pid, cid)).getD 0 + 80,
       (dget offsets (pid, cid)).getD 0 - 80] ∧
    ∃ chosen : ℚ,
      dget (renderEdgeModel cpf s e drawn offsets pid cid).1 (pid, cid) = some chosen ∧
      ((∃ pre suf, edgeOffsetCandidates ((dget offsets (pid, cid)).getD 0) =
          pre ++ chosen :: suf ∧ candidateOk cpf s e drawn chosen = true ∧
          ∀ c ∈ pre, candidateOk cpf s e drawn c = false) ∨
        ((∀ c ∈ edgeOffsetCandidates ((dget offsets (pid, cid)).getD 0),
            candidateOk cpf s e drawn c = false) ∧
          chosen = (dget offsets (pid, cid)).getD 0 - 80)) := by
  refine ⟨edgeOffsetCandidates_eq _, ?_⟩
  unfold renderEdgeModel
  cases hloop : edgeCandidateLoop cpf s e drawn
      (edgeOffsetCandidates ((dget offsets (pid, cid)).getD 0)) with
  | some r =>
      obtain ⟨-, pre, suf, hsplit, hok, hpre⟩ :=
        edgeCandidateLoop_some cpf s e drawn _ r hloop
      exact ⟨r.2, by simp [hloop, dget_dset_self], Or.inl ⟨pre, suf, hsplit, hok, hpre⟩⟩
  | none =>
      have hall := edgeCandidateLoop_none cpf s e drawn _ hloop
      refine ⟨(edgeOffsetCandidates ((dget offsets (pid, cid)).getD 0)).getLastD
        ((dget offsets (pid, cid)).getD 0), by simp [hloop, dget_dset_self], Or.inr ⟨hall, ?_⟩⟩
      rw [edgeOffsetCandidates_eq]
      simp [List.getLastD]

theorem pairsSeq_snoc (offset : ℚ) (m : ℕ) :
    pairsSeq offset (m+1) = pairsSeq offset m ++ [-(offset + m), offset + m] := by
  unfold pairsSeq
  rw [List.range_succ, List.flatMap_append]
  simp

theorem pairsSeq_cons (offset : ℚ) (m : ℕ) :
    pairsSeq offset (m+1) = -offset :: offset :: pairsSeq (offset + 1) m := by
  unfold pairsSeq
  rw [List.range_succ_eq_map]
  simp only [List.flatMap_cons, Nat.cast_zero, add_zero, List.flatMap_map, List.cons_append,
    List.nil_append]
  congr 2
  refine List.flatMap_congr ?_
  intro a _
  simp only [Function.comp_apply, Nat.succ_eq_add_one, List.cons.injEq, and_true]
  push_cast
  constructor
  · ring
  · ring

theorem pairsSeq_length (offset : ℚ) (m : ℕ) : (pairsSeq offset m).length = 2 * m := by
  induction m with
  | zero => simp [pairsSeq]
  | succ n ih => rw [pairsSeq_snoc, List.length_append, ih]; simp; omega

theorem pairsSeq_sum (offset : ℚ) (m : ℕ) : (pairsSeq offset m).sum = 0 := by
  induction m with
  | zero => simp [pairsSeq]
  | succ n ih =>
      rw [pairsSeq_snoc, List.sum_append, ih]
      simp only [List.sum_cons, List.sum_nil, zero_add]
      ring

theorem extendSym_eq_pairs : ∀ (m : ℕ) (count : ℕ) (acc : List ℚ) (offset : ℚ),
    count ≤ acc.length + 2 * m → (∀ j, j < m → acc.length + 2 * j < count) →
    extendSym count acc offset = acc ++ pairsSeq offset m := by
  intro m
  induction m with
  | zero =>
      intro count acc offset h1 _
      unfold extendSym
      rw [if_neg (by omega)]
      simp [pairsSeq]
  | succ n ih =>
      intro count acc offset h1 h2
      have hlt : acc.length < count := by
        have := h2 0 (Nat.succ_pos n)
        omega
      unfold extendSym
      rw [if_pos hlt]
      have h1' : count ≤ (acc ++ [-offset, offset]).length + 2 * n := by
        simp only [List.length_append, List.length_cons, List.length_nil]
        omega
      have h2' : ∀ j, j < n → (acc ++ [-offset, offset]).length + 2 * j < count := by
        intro j hj
        have := h2 (j+1) (by omega)
        simp only [List.length_append, List.length_cons, List.length_nil]
        omega
      rw [ih count (acc ++ [-offset, offset]) (offset + 1) h1' h2']
      rw [List.append_assoc, pairsSeq_cons]
      simp

theorem targetList_length (L : ℕ) : (targetList L).length = L := by
  unfold targetList
  rw [List.length_map, List.length_range]

theorem targetList_step (L : ℕ) :
    targetList (L + 2) =
      (-(((L : ℚ) + 1) / 2)) :: (targetList L ++ [((L : ℚ) + 1) / 2]) := by
  have h : List.range (L + 2) = 0 :: ((List.range L).map Nat.succ ++ [L + 1]) := by
    rw [show L + 2 = (L + 1) + 1 from rfl, List.range_succ_eq_map, List.range_succ]
    simp
  unfold targetList
  rw [h, List.map_cons, List.map_append, List.map_map]
  congr 1
  · push_cast
    ring
  congr 1
  · refine List.map_congr_left ?_
    intro a _
    simp only [Function.comp_apply, Nat.succ_eq_add_one]
    push_cast
    ring
  · simp only [List.map_cons, List.map_nil, List.cons.injEq, and_true]
    push_cast
    ring

theorem extendSym_even (m : ℕ) : extendSym (2 * m) [] (1/2) = pairsSeq (1/2) m := by
  have h := extendSym_eq_pairs m (2*m) [] (1/2)
    (by simp) (by intro j hj; simp; omega)
  simpa using h

theorem extendSym_odd (m : ℕ) : extendSym (2 * m + 1) [0] 1 = 0 :: pairsSeq 1 m := by
  have h := extendSym_eq_pairs m (2*m+1) [0] 1
    (by simp; omega) (by intro j hj; simp; omega)
  simpa using h

theorem perm_snoc_pair (l : List ℚ) (a b : ℚ) :
    List.Perm (l ++ [a, b]) (a :: (l ++ [b])) := by
  have h1 : l ++ [a, b] = (l ++ [a]) ++ [b] := by simp
  have h2 : a :: (l ++ [b]) = ([a] ++ l) ++ [b] := by simp
  rw [h1, h2]
  exact List.perm_append_comm.append_right _

theorem pairsSeq_perm_target (m : ℕ) : (pairsSeq (1/2) m).Perm (targetList (2*m)) := by
  induction m with
  | zero => simp [pairsSeq, targetList]
  | succ n ih =>
      rw [pairsSeq_snoc, show 2*(n+1) = 2*n + 2 from by ring, targetList_step]
      have hv1 : -((1:ℚ)/2 + (n:ℚ)) = -((((2*n : ℕ) : ℚ) + 1) / 2) := by push_cast; ring
      have hv2 : (1:ℚ)/2 + (n:ℚ) = (((2*n : ℕ) : ℚ) + 1) / 2 := by push_cast; ring
      rw [hv1, hv2]
      exact (ih.append_right _).trans (perm_snoc_pair _ _ _)

theorem pairsSeq_perm_target_odd (m : ℕ) :
    ((0 : ℚ) :: pairsSeq 1 m).Perm (targetList (2*m+1)) := by
  induction m with
  | zero =>
      have h1 : targetList 1 = [0] := by norm_num [targetList, List.range_succ]
      simp [pairsSeq, h1]
  | succ n ih =>
      rw [pairsSeq_snoc, show 2*(n+1)+1 = (2*n+1) + 2 from by ring, targetList_step]
      have hv1 : -((1:ℚ) + (n:ℚ)) = -((((2*n+1 : ℕ) : ℚ) + 1) / 2) := by push_cast; ring
      have hv2 : (1:ℚ) + (n:ℚ) = (((2*n+1 : ℕ) : ℚ) + 1) / 2 := by push_cast; ring
      rw [hv1, hv2]
      exact (ih.append_right _).trans (perm_snoc_pair _ _ _)

theorem targetList_sorted (L : ℕ) : (targetList L).Sorted (· ≤ ·) := by
  unfold targetList
  refine List.Pairwise.map _ ?_ (List.pairwise_lt_range L)
  intro a b hab
  have : (a : ℚ) ≤ (b : ℚ) := by exact_mod_cast le_of_lt hab
  linarith

/-- The symmetric position sequence equals its closed form: the `L` values
`k - (L-1)/2`, which are exactly the claimed `±0.5, ±1.5, ...` (even `L`) or
`0, ±1, ±2, ...` (odd `L`), sorted ascending. -/
theorem symmetricalPositions_eq_target (L : ℕ) : symmetricalPositions L = targetList L := by
  by_cases h0 : L = 0
  · subst h0
    simp [symmetricalPositions, targetList]
  by_cases hpar : L % 2 = 0
  · obtain ⟨m, rfl⟩ : ∃ m, L = 2 * m := ⟨L / 2, by omega⟩
    unfold symmetricalPositions
    rw [if_neg h0, if_pos hpar]
    rw [extendSym_even m, List.take_of_length_le (le_of_eq (pairsSeq_length _ m))]
    exact List.eq_of_perm_of_sorted
      ((List.perm_insertionSort _ _).trans (pairsSeq_perm_target m))
      (List.sorted_insertionSort _ _) (targetList_sorted _)
  · obtain ⟨m, rfl⟩ : ∃ m, L = 2 * m + 1 := ⟨L / 2, by omega⟩
    unfold symmetricalPositions
    rw [if_neg h0, if_neg hpar]
    rw [extendSym_odd m]
    rw [List.take_of_length_le (by simp [pairsSeq_length])]

    exact List.eq_of_perm_of_sorted
      ((List.perm_insertionSort _ _).trans (pairsSeq_perm_target_odd m))
      (List.sorted_insertionSort _ _) (targetList_sorted _)

theorem targetList_sum : ∀ L : ℕ, (targetList L).sum = 0 := by
  intro L
  induction L using Nat.strong_induction_on with
  | _ L ih =>
    match L with
    | 0 => simp [targetList]
    | 1 => norm_num [targetList, List.range_succ]
    | (n+2) =>
        rw [targetList_step, List.sum_cons, List.sum_append, ih n (by omega)]
        simp

theorem symmetricalPositions_sum (L : ℕ) : (symmetricalPositions L).sum = 0 := by
  rw [symmetricalPositions_eq_target, targetList_sum]

theorem symmetricalPositions_length (L : ℕ) : (symmetricalPositions L).length = L := by
  rw [symmetricalPositions_eq_target, targetList_length]

theorem bucketAssignments_map_snd (rootId : ℕ) (entries : List Entry)
    (hne : entries ≠ [])
    (hroot : ∀ e ∈ entries, e.2.2.2 = none ∨ e.2.2.2 = some rootId) :
    (bucketAssignments rootId entries (symmetricalPositions entries.length)).map Prod.snd
      = symmetricalPositions entries.length := by
  have hempty : entries.isEmpty = false := by
    cases entries with
    | nil => exact absurd rfl hne
    | cons a l => rfl
  unfold bucketAssignments
  simp only [hempty, Bool.false_eq_true, if_false]
  have hplen : (symmetricalPositions entries.length).length = entries.length :=
    symmetricalPositions_length entries.length
  have hslen : (entries.insertionSort entryLess).length = entries.length :=
    (List.perm_insertionSort entryLess entries).length_eq
  rw [List.map_map]
  refine List.ext_getElem ?_ ?_
  · simp [hslen, hplen]
  · intro i h1 h2
    simp only [List.length_map, List.enum_length, hslen] at h1
    rw [List.getElem_map, List.getElem_enum]
    have hmem : (entries.insertionSort entryLess)[i] ∈ entries :=
      (List.perm_insertionSort entryLess entries).mem_iff.mp (List.getElem_mem _)
    have hw : entryWeight rootId ((entries.insertionSort entryLess)[i]) = 0 := by
      unfold entryWeight
      rcases hroot _ hmem with h | h <;> simp [h]
    simp only [Function.comp_apply, hw]
    have hn0 : ¬ (symmetricalPositions entries.length).length = 0 := by
      rw [hplen]
      intro hcon
      exact hne (List.eq_nil_of_length_eq_zero hcon)
    rw [if_neg hn0]
    have hmin : min i ((symmetricalPositions entries.length).length - 1) = i := by
      rw [hplen]
      omega
    rw [hmin, List.getD_eq_getElem]
    ring

/-- C1 (amended): the symmetric position sequence of length `L` is exactly
`k - (L-1)/2`, `k < L` (that is, `±0.5, ±1.5, ...` for even `L` and
`0, ±1, ±2, ...` for odd `L`, sorted ascending); and for a bucket of
same-direction siblings whose parent carries slot weight 0 (parent is the
root or `None`) and whose size equals the position-sequence length, the
assigned slots are exactly that sequence, so their sum is 0.  (When the
bucket is shorter than `max(|left|, |right|)`, it receives a proper prefix
and the sum can be nonzero, as the counterexample shows.) -/
theorem slot_symmetry (rootId : ℕ) (entries : List Entry)
    (hne : entries ≠ [])
    (hroot : ∀ e ∈ entries, e.2.2.2 = none ∨ e.2.2.2 = some rootId) :
    (bucketAssignments rootId entries (symmetricalPositions entries.length)).map Prod.snd
        = symmetricalPositions entries.length ∧
    ((bucketAssignments rootId entries (symmetricalPositions entries.length)).map
        Prod.snd).sum = 0 ∧
    ∀ L : ℕ, symmetricalPositions L = targetList L :=
  ⟨bucketAssignments_map_snd rootId entries hne hroot,
   by rw [bucketAssignments_map_snd rootId entries hne hroot, symmetricalPositions_sum],
   symmetricalPositions_eq_target⟩

/-- Witness for C1 at the two left-direction children of the root of
`wsThree` (entries as built by `_compute_vertical_slots` at depth 1). -/
theorem slot_symmetry_witness :
    ((bucketAssignments 1 [((0:ℚ), 0, 2, some 1), ((0:ℚ), 2, 4, some 1)]
        (symmetricalPositions 2)).map Prod.snd).sum = 0 :=
  (slot_symmetry 1 [((0:ℚ), 0, 2, some 1), ((0:ℚ), 2, 4, some 1)]
    (by decide) (by decide)).2.1

set_option maxRecDepth 8000 in
/-- Counterexample to C1 as stated: in `wsThree` the root has three children,
so the right bucket at depth 1 holds the single sibling 3 while the shared
position sequence has length `max(2, 1) = 2`; node 3 receives the prefix value
`-1/2` and the right-direction sibling group sums to `-1/2 ≠ 0`. -/
theorem slot_symmetry_counterexample :
    assignDirectionsF wsThree 10 1 =
      some (some [(1, 0), (2, -1), (3, 1), (4, -1)]) ∧
    computeDepthsF wsThree 10 1 =
      some (some [(1, 0), (2, 1), (3, 1), (4, 1)]) ∧
    computeVerticalSlotsF wsThree 1 [(1, 0), (2, -1), (3, 1), (4, -1)]
        [(1, 0), (2, 1), (3, 1), (4, 1)] =
      some [(1, 0), (2, -(1/2)), (4, 1/2), (3, -(1/2))] ∧
    (([3] : List ℕ).map fun n =>
        (dget [((1:ℕ), (0:ℚ)), (2, -(1/2)), (4, 1/2), (3, -(1/2))] n).getD 0).sum =
      -(1/2) ∧
    (-(1/2) : ℚ) ≠ 0 := by
  have hsym2 : symmetricalPositions 2 = [-(1/2 : ℚ), 1/2] := by
    rw [symmetricalPositions_eq_target]
    norm_num [targetList, List.range_succ]
  have hsym0 : symmetricalPositions 0 = [] := by
    simp [symmetricalPositions]
  refine ⟨by decide, by decide, ?_, by norm_num [dget], by norm_num⟩
  norm_num [computeVerticalSlotsF, levelsOf, maxKey, slotsLevelStep, levelEntry,
    bucketAssignments, applyWrites, hsym2, hsym0, entryLess,
    entryWeight, parentOf, dget, dset, wsThree, List.insertionSort, List.orderedInsert,
    List.mapM, List.mapM.loop, List.range_succ, List.enum, List.enumFrom, List.findIdx?]

theorem dget_mem_keys {κ α : Type} [DecidableEq κ] {d : List (κ × α)} {k : κ} {v : α}
    (h : dget d k = some v) : k ∈ d.map Prod.fst := by
  by_contra hmem
  rw [← dget_eq_none_iff d k] at hmem
  rw [h] at hmem
  cases hmem

theorem nodup_all_eq_singleton {l : List ℕ} {r : ℕ} (hnd : l.Nodup) (hr : r ∈ l)
    (hall : ∀ x ∈ l, x = r) : l = [r] := by
  cases l with
  | nil => cases hr
  | cons a t =>
      have ha : a = r := hall a (List.mem_cons_self a t)
      subst ha
      cases t with
      | nil => rfl
      | cons b t2 =>
          have hb : b = a := hall b (by simp)
          subst hb
          simp at hnd

theorem inv_claimInv (ws : WS) (hinv : Inv ws) : ClaimInv ws := by
  obtain ⟨hnd, -, -, -, -, -, hbid, hrn, hrs, hur⟩ := hinv
  intro hne
  refine ⟨?_, hbid⟩
  cases hri : ws.rootId with
  | none => exact absurd (hrn hri) hne
  | some r =>
      obtain ⟨hrmem, hrnone⟩ := hrs r hri
      have hrfil : r ∈ (nodeIds ws).filter (fun n => decide (parentOf ws.parent n = none)) := by
        rw [List.mem_filter]
        exact ⟨hrmem, by simp [hrnone]⟩
      have hall : ∀ x ∈ (nodeIds ws).filter (fun n => decide (parentOf ws.parent n = none)),
          x = r := by
        intro x hx
        rw [List.mem_filter] at hx
        have hxn : parentOf ws.parent x = none := by simpa using hx.2
        have := hur x hx.1 hxn
        rw [hri] at this
        exact (Option.some_inj.mp this).symm
      rw [nodup_all_eq_singleton (hnd.filter _) hrfil hall]
      rfl

theorem mem_childrenOfD_cases (ws : WS) (q x : ℕ) (h : x ∈ childrenOfD ws q) :
    ∃ nd, dget ws.nodes q = some nd ∧ x ∈ nd.children := by
  unfold childrenOfD at h
  cases hd : dget ws.nodes q with
  | none => rw [hd] at h; simp at h
  | some nd =>
      rw [hd] at h
      exact ⟨nd, rfl, by simpa using h⟩

theorem childrenOfD_of_dget (ws : WS) (q : ℕ) (nd : NodeData)
    (h : dget ws.nodes q = some nd) : childrenOfD ws q = nd.children := by
  unfold childrenOfD
  rw [h]
  rfl

/-- Under the invariant, a node is in nobody else's children list than its
parent's. -/
theorem not_mem_children_of_parent_ne (ws : WS) (hinv : Inv ws) (c q : ℕ)
    (hq : parentOf ws.parent c ≠ some q) : c ∉ childrenOfD ws q := by
  obtain ⟨-, -, -, -, -, hcin, hbid, -, -, -⟩ := hinv
  intro hmem
  obtain ⟨nd, hd, -⟩ := mem_childrenOfD_cases ws q c hmem
  have hqids : q ∈ nodeIds ws := dget_mem_keys hd
  have hcids : c ∈ nodeIds ws := hcin q hqids c hmem
  exact hq ((hbid q hqids c hcids).mp hmem)

theorem detach_char (ws : WS) (c : ℕ) (ws1 : WS) (hinv : Inv ws)
    (h : detachChild ws c = some ws1) :
    ws1.parent = ws.parent ∧ ws1.rootId = ws.rootId ∧
    nodeIds ws1 = nodeIds ws ∧
    (∀ q, childrenOfD ws1 q = (childrenOfD ws q).erase c) := by
  unfold detachChild at h
  cases hA : parentOf ws.parent c with
  | none =>
      rw [hA] at h
      obtain rfl : ws = ws1 := by simpa using h
      refine ⟨rfl, rfl, rfl, ?_⟩
      intro q
      rw [List.erase_of_not_mem]
      exact not_mem_children_of_parent_ne ws hinv c q (by rw [hA]; exact fun hc => nomatch hc)
  | some cp =>
      rw [hA] at h
      simp only [] at h
      cases hB : dget ws.nodes cp with
      | none => rw [hB] at h; cases h
      | some nd =>
          rw [hB] at h
          simp only [] at h
          by_cases hmem : c ∈ nd.children
          · rw [if_pos hmem] at h
            obtain rfl : ({ ws with
                nodes := dset ws.nodes cp
                  { nd with children := nd.children.erase c } } : WS) = ws1 := by
              simpa using h
            refine ⟨rfl, rfl, ?_, ?_⟩
            · show (dset ws.nodes cp _).map Prod.fst = ws.nodes.map Prod.fst
              exact keys_dset_of_mem _ _ _ (dget_mem_keys hB)
            · intro q
              by_cases hq : q = cp
              · subst hq
                rw [childrenOfD_of_dget _ q _ (dget_dset_self ws.nodes q _),
                  childrenOfD_of_dget ws q nd hB]
              · have hunch : childrenOfD { ws with
                    nodes := dset ws.nodes cp
                      { nd with children := nd.children.erase c } } q = childrenOfD ws q := by
                  unfold childrenOfD
                  rw [show dget (dset ws.nodes cp { nd with children := nd.children.erase c }) q
                      = dget ws.nodes q from dget_dset_ne _ _ _ _ hq]
                rw [hunch, List.erase_of_not_mem]
                refine not_mem_children_of_parent_ne ws hinv c q ?_
                rw [hA]
                intro hc
                exact hq (Option.some_inj.mp hc).symm
          · rw [if_neg hmem] at h
            obtain rfl : ws = ws1 := by simpa using h
            refine ⟨rfl, rfl, rfl, ?_⟩
            intro q
            rw [List.erase_of_not_mem]
            by_cases hq : q = cp
            · subst hq
              rw [childrenOfD_of_dget ws q nd hB]
              exact hmem
            · refine not_mem_children_of_parent_ne ws hinv c q ?_
              rw [hA]
              intro hc
              exact hq (Option.some_inj.mp hc).symm

theorem childrenOfD_congr_nodes (ws ws' : WS) (h : ws.nodes = ws'.nodes) (q : ℕ) :
    childrenOfD ws q = childrenOfD ws' q := by
  unfold childrenOfD
  rw [h]

theorem attach_char (ws1 : WS) (p c : ℕ) (ws' : WS)
    (hroot : ws1.rootId ≠ some c) (h : attachChild ws1 p c = some ws') :
    ∃ pnd, dget ws1.nodes p = some pnd ∧
      c ∈ nodeIds ws1 ∧
      ws'.rootId = ws1.rootId ∧
      ws'.parent = dset ws1.parent c (some p) ∧
      nodeIds ws' = nodeIds ws1 ∧
      (∀ q, q ≠ p → childrenOfD ws' q = childrenOfD ws1 q) ∧
      childrenOfD ws' p =
        (if c ∈ pnd.children then pnd.children else pnd.children ++ [c]) := by
  unfold attachChild at h
  cases hP : dget ws1.nodes p with
  | none => rw [hP] at h; cases h
  | some pnd =>
      rw [hP] at h
      simp only [] at h
      refine ⟨pnd, rfl, ?_⟩
      have hpkeys : p ∈ ws1.nodes.map Prod.fst := dget_mem_keys hP
      by_cases hmem : c ∈ pnd.children
      · rw [if_pos hmem, if_neg hroot] at h
        cases hC : dget ws1.nodes c with
        | none => rw [hC] at h; cases h
        | some cnd =>
            rw [hC] at h
            simp only [] at h
            have hcids : c ∈ nodeIds ws1 := dget_mem_keys hC
            by_cases hcust : cnd.custom
            · rw [if_pos hcust] at h
              obtain rfl : ({ ws1 with
                  parent := dset ws1.parent c (some p) } : WS) = ws' := by simpa using h
              refine ⟨hcids, rfl, rfl, rfl, fun q _ => rfl, ?_⟩
              show childrenOfD ws1 p = if c ∈ pnd.children then pnd.children
                else pnd.children ++ [c]
              rw [childrenOfD_of_dget ws1 p pnd hP, if_pos hmem]
            · rw [if_neg hcust] at h
              obtain rfl : ({ ws1 with
                  parent := dset ws1.parent c (some p)
                  nodes := dset ws1.nodes c
                    { cnd with fill := some (defaultFillForDepth
                        (nodeDepth (dset ws1.parent c (some p)) c)) } } : WS) = ws' := by
                simpa using h
              refine ⟨hcids, rfl, rfl, ?_, ?_, ?_⟩
              · show (dset ws1.nodes c _).map Prod.fst = ws1.nodes.map Prod.fst
                exact keys_dset_of_mem _ _ _ hcids
              · intro q _
                by_cases hqc : q = c
                · subst hqc
                  rw [childrenOfD_of_dget _ q _ (dget_dset_self ws1.nodes q _),
                    childrenOfD_of_dget ws1 q cnd hC]
                · unfold childrenOfD
                  rw [show dget (dset ws1.nodes c _) q = dget ws1.nodes q from
                    dget_dset_ne _ _ _ _ hqc]
              · rw [if_pos hmem]
                by_cases hpc : p = c
                · subst hpc
                  rw [childrenOfD_of_dget _ p _ (dget_dset_self ws1.nodes p _)]
                  have : cnd = pnd := by
                    rw [hP] at hC
                    exact (Option.some_inj.mp hC).symm
                  rw [this]
                · unfold childrenOfD
                  rw [show dget (dset ws1.nodes c _) p = dget ws1.nodes p from
                    dget_dset_ne _ _ _ _ hpc, hP]
                  rfl
      · rw [if_neg hmem, if_neg hroot] at h
        cases hC : dget (dset ws1.nodes p { pnd with children := pnd.children ++ [c] }) c with
        | none => rw [hC] at h; cases h
        | some cnd =>
            rw [hC] at h
            simp only [] at h
            have hcids : c ∈ nodeIds ws1 := by
              have := dget_mem_keys hC
              rwa [keys_dset_of_mem _ _ _ hpkeys] at this
            by_cases hcust : cnd.custom
            · rw [if_pos hcust] at h
              obtain rfl : ({ ws1 with
                  parent := dset ws1.parent c (some p)
                  nodes := dset ws1.nodes p
                    { pnd with children := pnd.children ++ [c] } } : WS) = ws' := by
                simpa using h
              refine ⟨hcids, rfl, rfl, ?_, ?_, ?_⟩
              · show (dset ws1.nodes p _).map Prod.fst = ws1.nodes.map Prod.fst
                exact keys_dset_of_mem _ _ _ hpkeys
              · intro q hq
                unfold childrenOfD
                rw [show dget (dset ws1.nodes p _) q = dget ws1.nodes q from
                  dget_dset_ne _ _ _ _ hq]
              · rw [if_neg hmem,
                  childrenOfD_of_dget _ p _ (dget_dset_self ws1.nodes p _)]
            · rw [if_neg hcust] at h
              obtain rfl : ({ ws1 with
                  parent := dset ws1.parent c (some p)
                  nodes := dset (dset ws1.nodes p { pnd with children := pnd.children ++ [c] })
                    c { cnd with fill := some (defaultFillForDepth
                        (nodeDepth (dset ws1.parent c (some p)) c)) } } : WS) = ws' := by
                simpa using h
              refine ⟨hcids, rfl, rfl, ?_, ?_, ?_⟩
              · show (dset (dset ws1.nodes p _) c _).map Prod.fst = ws1.nodes.map Prod.fst
                rw [keys_dset_of_mem, keys_dset_of_mem _ _ _ hpkeys]
                rwa [keys_dset_of_mem _ _ _ hpkeys]
              · intro q hq
                by_cases hqc : q = c
                · subst hqc
                  rw [childrenOfD_of_dget _ q _ (dget_dset_self _ q _)]
                  have hcq : dget ws1.nodes q = some cnd := by
                    rw [show dget (dset ws1.nodes p _) q = dget ws1.nodes q from
                      dget_dset_ne _ _ _ _ (fun hh => hq hh)] at hC
                    exact hC
                  rw [childrenOfD_of_dget ws1 q cnd hcq]
                · unfold childrenOfD
                  rw [show dget (dset (dset ws1.nodes p _) c _) q =
                      dget (dset ws1.nodes p _) q from dget_dset_ne _ _ _ _ hqc,
                    show dget (dset ws1.nodes p _) q = dget ws1.nodes q from
                      dget_dset_ne _ _ _ _ hq]
              · rw [if_neg hmem]
                by_cases hpc : p = c
                · subst hpc
                  rw [childrenOfD_of_dget _ p _ (dget_dset_self _ p _)]
                  have : cnd = { pnd with children := pnd.children ++ [p] } := by
                    rw [dget_dset_self] at hC
                    exact (Option.some_inj.mp hC).symm
                  rw [this]
                · rw [childrenOfD_of_dget _ p _ (by
                    rw [show dget (dset (dset ws1.nodes p _) c _) p =
                        dget (dset ws1.nodes p _) p from dget_dset_ne _ _ _ _ hpc]
                    exact dget_dset_self _ p _)]

theorem inv_of_update (ws ws' : WS) (p c : ℕ) (hinv : Inv ws)
    (hc : c ∈ nodeIds ws) (hp : p ∈ nodeIds ws) (hroot : ws.rootId ≠ some c)
    (F1 : nodeIds ws' = nodeIds ws)
    (F2k : ws'.parent.map Prod.fst = ws.parent.map Prod.fst)
    (F2 : ∀ x, dget ws'.parent x = if x = c then some (some p) else dget ws.parent x)
    (F3 : ∀ q, childrenOfD ws' q =
      if q = p then (childrenOfD ws q).erase c ++ [c] else (childrenOfD ws q).erase c)
    (F4 : ws'.rootId = ws.rootId) : Inv ws' := by
  obtain ⟨hnd, hpnd, hpe, hpin, hcnd, hcin, hbid, hrn, hrs, hur⟩ := hinv
  have hparentOf : ∀ x, parentOf ws'.parent x =
      if x = c then some p else parentOf ws.parent x := by
    intro x
    unfold parentOf
    rw [F2 x]
    by_cases hx : x = c <;> simp [hx]
  refine ⟨?_, ?_, ?_, ?_, ?_, ?_, ?_, ?_, ?_, ?_⟩
  · rw [F1]; exact hnd
  · rw [F2k]; exact hpnd
  · intro n hn
    rw [F2 n]
    by_cases hx : n = c
    · simp [hx]
    · rw [if_neg hx]
      exact hpe n (F1 ▸ hn)
  · intro n hn q hq
    rw [F1] at hn
    rw [hparentOf n] at hq
    rw [F1]
    by_cases hx : n = c
    · rw [if_pos hx] at hq
      cases hq
      exact hp
    · rw [if_neg hx] at hq
      exact hpin n hn q hq
  · intro n hn
    rw [F1] at hn
    rw [F3 n]
    by_cases hq : n = p
    · subst hq
      rw [if_pos rfl]
      have hnd1 : ((childrenOfD ws n).erase c).Nodup := (hcnd n hn).erase _
      have hcne : c ∉ (childrenOfD ws n).erase c := (hcnd n hn).not_mem_erase
      rw [List.nodup_append]
      refine ⟨hnd1, List.nodup_singleton c, ?_⟩
      intro a ha hb
      rw [List.mem_singleton] at hb
      subst hb
      exact hcne ha
    · rw [if_neg hq]
      exact (hcnd n hn).erase _
  · intro n hn x hx
    rw [F1] at hn ⊢
    rw [F3 n] at hx
    by_cases hq : n = p
    · rw [if_pos hq] at hx
      rcases List.mem_append.mp hx with hx | hx
      · exact hcin n hn x (List.mem_of_mem_erase hx)
      · rw [List.mem_singleton] at hx
        subst hx
        exact hc
    · rw [if_neg hq] at hx
      exact hcin n hn x (List.mem_of_mem_erase hx)
  · intro q hq b hb
    rw [F1] at hq hb
    rw [F3 q, hparentOf b]
    by_cases hbc : b = c
    · subst hbc
      by_cases hqp : q = p
      · subst hqp
        rw [if_pos rfl, if_pos rfl]
        simp
      · rw [if_neg hqp, if_pos rfl]
        have hl : b ∉ (childrenOfD ws q).erase b := (hcnd q hq).not_mem_erase
        constructor
        · intro hmem
          exact absurd hmem hl
        · intro hpq
          exact absurd (Option.some_inj.mp hpq).symm hqp
    · rw [if_neg hbc]
      by_cases hqp : q = p
      · subst hqp
        rw [if_pos rfl]
        have h1 : b ∈ (childrenOfD ws q).erase c ++ [c] ↔ b ∈ childrenOfD ws q := by
          rw [List.mem_append, List.mem_singleton]
          simp only [hbc, or_false]
          exact List.mem_erase_of_ne hbc
        rw [h1]
        exact hbid q hq b hb
      · rw [if_neg hqp, List.mem_erase_of_ne hbc]
        exact hbid q hq b hb
  · intro hrnone
    rw [F4] at hrnone
    have hempty := hrn hrnone
    exfalso
    rw [nodeIds, hempty] at hp
    simp at hp
  · intro r hr
    rw [F4] at hr
    obtain ⟨hrm, hrp⟩ := hrs r hr
    refine ⟨by rw [F1]; exact hrm, ?_⟩
    rw [hparentOf r, if_neg ?_]
    · exact hrp
    · intro hrc
      subst hrc
      exact hroot hr
  · intro n hn hpn
    rw [F1] at hn
    rw [hparentOf n] at hpn
    rw [F4]
    by_cases hx : n = c
    · rw [if_pos hx] at hpn
      cases hpn
    · rw [if_neg hx] at hpn
      exact hur n hn hpn

theorem add_edge_preserves_inv (ws : WS) (p c : ℕ) (ws' : WS) (hinv : Inv ws)
    (hroot : ws.rootId ≠ some c) (h : addEdge ws p c = some ws') : Inv ws' := by
  unfold addEdge at h
  cases hD : detachChild ws c with
  | none => rw [hD] at h; cases h
  | some ws1 =>
      rw [hD] at h
      simp only [] at h
      obtain ⟨hpar1, hroot1, hids1, hch1⟩ := detach_char ws c ws1 hinv hD
      have hroot1' : ws1.rootId ≠ some c := by rw [hroot1]; exact hroot
      obtain ⟨pnd, hP, hc1, hr', hpar', hids', hchne, hchp⟩ :=
        attach_char ws1 p c ws' hroot1' h
      have hc : c ∈ nodeIds ws := hids1 ▸ hc1
      have hp : p ∈ nodeIds ws := by
        rw [← hids1]
        exact dget_mem_keys hP
      have hckey : c ∈ ws.parent.map Prod.fst := by
        rw [← dget_isSome_iff]
        obtain ⟨-, -, hpe, -, -, -, -, -, -, -⟩ := hinv
        exact hpe c hc
      refine inv_of_update ws ws' p c hinv hc hp hroot ?_ ?_ ?_ ?_ ?_
      · rw [hids', hids1]
      · rw [hpar', hpar1]
        exact keys_dset_of_mem _ _ _ hckey
      · intro x
        rw [hpar', hpar1]
        by_cases hx : x = c
        · subst hx
          rw [if_pos rfl]
          exact dget_dset_self _ _ _
        · rw [if_neg hx]
          exact dget_dset_ne _ _ _ _ hx
      · intro q
        have hpc : childrenOfD ws1 p = pnd.children := childrenOfD_of_dget ws1 p pnd hP
        by_cases hq : q = p
        · subst hq
          rw [if_pos rfl, hchp]
          have hcpn : c ∉ pnd.children := by
            rw [← hpc, hch1 q]
            obtain ⟨-, -, -, -, hcnd, -, -, -, -, -⟩ := hinv
            exact (hcnd q hp).not_mem_erase
          rw [if_neg hcpn, ← hpc, hch1 q]
        · rw [if_neg hq, hchne q hq, hch1 q]
      · rw [hr', hroot1]

theorem createNode_empty_inv (ws : WS) (t : String) (x y mw mh : ℚ)
    (hn : ws.nodes = []) (hp : ws.parent = []) (hr : ws.rootId = none) :
    Inv (createNode ws t x y mw mh).1 := by
  have hstate : (createNode ws t x y mw mh).1 =
      { ws with
          nodes := [(ws.nextId,
            { text := t, x := (findFreePosition ws.nodes x y).1,
              y := (findFreePosition ws.nodes x y).2, children := [],
              fill := some (PALETTE_COLORS.getD (ws.paletteIndex % PALETTE_COLORS.length)
                "#ffffff"),
              custom := true, w := max mw NODE_W, h := max mh NODE_H })]
          parent := [(ws.nextId, none)]
          rootId := some ws.nextId
          nextId := ws.nextId + 1
          paletteIndex := ws.paletteIndex + 1 } := by
    unfold createNode nextAutoColor setRootWS
    rw [hn, hp]
    simp [dset, hr]
  rw [hstate]
  refine ⟨?_, ?_, ?_, ?_, ?_, ?_, ?_, ?_, ?_, ?_⟩
  · simp [nodeIds]
  · simp
  · intro n hn'
    simp [nodeIds] at hn'
    subst hn'
    simp [dget]
  · intro n hn' q hq
    simp [nodeIds] at hn'
    subst hn'
    simp [parentOf, dget] at hq
  · intro n hn'
    simp [nodeIds] at hn'
    subst hn'
    simp [childrenOfD, dget]
  · intro n hn' cc hcc
    simp [nodeIds] at hn'
    subst hn'
    simp [childrenOfD, dget] at hcc
  · intro q hq' cc hcc
    simp [nodeIds] at hq' hcc
    subst hq'
    subst hcc
    constructor
    · intro hmem
      simp [childrenOfD, dget] at hmem
    · intro hpar
      simp [parentOf, dget] at hpar
  · intro hcontra
    simp at hcontra
  · intro r hrr
    simp at hrr
    subst hrr
    constructor
    · simp [nodeIds]
    · simp [parentOf, dget]
  · intro n hn' _
    simp [nodeIds] at hn'
    subst hn'
    rfl

/-- C5 (amended): the invariant (to which the structural well-formedness `Inv`
adds duplicate-freeness and in-bounds conditions) is implied by `Inv`; it is
preserved by add-edge whenever the child is not the current root; create-node
establishes it on a fresh empty workspace; and delete-subtree preserves it on
tree-shaped workspaces — deleting a leaf of `wsTri` and deleting the whole
tree of `wsPair` both end in invariant states.  Set-root, create-node on a
non-empty workspace, add-edge that reparents the current root, and
delete-subtree on a loadable workspace with a parent cycle disconnected from
the root all break the invariant (see the counterexample). -/
theorem tree_invariant_mutations :
    (∀ ws, Inv ws → ClaimInv ws) ∧
    (∀ ws p c ws', Inv ws → ws.rootId ≠ some c → addEdge ws p c = some ws' → Inv ws') ∧
    (∀ ws t x y mw mh, ws.nodes = [] → ws.parent = [] → ws.rootId = none →
      Inv (createNode ws t x y mw mh).1) ∧
    (∃ ws', deleteSelectedF wsTri 5 2 = some (some ws') ∧ Inv ws' ∧
      nodeIds ws' = [1, 3] ∧ ws'.rootId = some 1) ∧
    (∃ ws', deleteSelectedF wsPair 5 1 = some (some ws') ∧ Inv ws' ∧ ws'.nodes = []) :=
  ⟨inv_claimInv,
   fun ws p c ws' hinv hroot h => add_edge_preserves_inv ws p c ws' hinv hroot h,
   fun ws t x y mw mh hn hp hr => createNode_empty_inv ws t x y mw mh hn hp hr,
   ⟨{ nodes := [(1, ⟨"Root", 0, 0, [3], some "#B9C2FF", true, 160, 56⟩),
                (3, ⟨"B", 300, 100, [], some "#FFF49A", true, 160, 56⟩)],
      parent := [(1, none), (3, some 1)], rootId := some 1, nextId := 4,
      scale := 1, offsetX := 0, offsetY := 0, paletteIndex := 3 },
    by decide, by decide, by decide, by decide⟩,
   ⟨{ nodes := [], parent := [], rootId := none, nextId := 3,
      scale := 1, offsetX := 0, offsetY := 0, paletteIndex := 2 },
    by decide, by decide, by decide⟩⟩

/-- Witness for C5: reparenting node 3 under node 2 in `wsTri` keeps the
invariant, and creating the first node on an empty workspace establishes it. -/
theorem tree_invariant_witness :
    Inv wsTri ∧ ClaimInv wsPair ∧
    Inv ((addEdge wsTri 2 3).getD wsTri) ∧
    Inv (createNode ⟨[], [], none, 1, 1, 0, 0, 0⟩ "Root" 0 0 0 0).1 := by
  have hsome : addEdge wsTri 2 3 = some ((addEdge wsTri 2 3).getD wsTri) := by decide
  exact ⟨by decide, tree_invariant_mutations.1 wsPair (by decide),
    tree_invariant_mutations.2.1 wsTri 2 3 _ (by decide) (by decide) hsome,
    tree_invariant_mutations.2.2.1 _ "Root" 0 0 0 0 rfl rfl rfl⟩

/-- Counterexample to C5 as stated: `wsPair` satisfies the claimed invariant,
but (a) set-root on the child node 2 leaves node 2 inside the children list of
node 1 while clearing its parent pointer (two parentless nodes, broken
bidirectional consistency); (b) create-node on the non-empty `wsPair` adds a
second parentless non-root node; (c) add-edge reparenting the current root
(`_add_edge(2, 1)` with root 1) promotes node 2 via `_set_root` without
removing 2 from node 1's children list, so afterwards 2 is listed as a child
of 1 yet has no parent pointer; and (d) delete-subtree on `wsRootCycle` — a
loadable, invariant-satisfying workspace whose nodes 2 and 3 form a parent
cycle beside the root 1 — deletes the root and reassigns `root_id` to the
first remaining node (line 463), which still has a parent, leaving zero
parentless nodes. -/
theorem tree_invariant_counterexample :
    ClaimInv wsPair ∧
    ¬ ClaimInv (setRootWS wsPair 2) ∧
    ¬ ClaimInv (createNode wsPair "New Node" 600 0 0 0).1 ∧
    ((addEdge wsPair 2 1).isSome ∧ ¬ ClaimInv ((addEdge wsPair 2 1).getD wsPair)) ∧
    (Inv wsRootCycle ∧ deleteSelectedF wsRootCycle 5 1 = some (some wsRootCycleDel) ∧
      ¬ ClaimInv wsRootCycleDel) := by
  refine ⟨by decide, ?_, ?_, ⟨by decide, ?_⟩, by decide, by decide, ?_⟩
  · intro hcl
    have := hcl (by decide)
    revert this
    decide
  · intro hcl
    have := hcl (by decide)
    revert this
    decide
  · intro hcl
    have := hcl (by decide)
    revert this
    decide
  · intro hcl
    have := hcl (by decide)
    revert this
    decide

theorem dget_map_f {α β : Type} (l : List (ℕ × α)) (f : ℕ × α → ℕ × β)
    (hf : ∀ p, (f p).1 = p.1) (k : ℕ) :
    dget (l.map f) k = (dget l k).map (fun v => (f (k, v)).2) := by
  induction l with
  | nil => rfl
  | cons hd tl ih =>
      obtain ⟨k', v⟩ := hd
      simp only [List.map_cons]
      rcases hfp : f (k', v) with ⟨fk, fv⟩
      have hfk : fk = k' := by
        have := hf (k', v)
        rw [hfp] at this
        exact this
      subst hfk
      by_cases hk : fk = k
      · subst hk
        have h1 : dget ((fk, fv) :: List.map f tl) fk = some fv := by simp [dget]
        have h2 : dget ((fk, v) :: tl) fk = some v := by simp [dget]
        rw [h1, h2]
        simp only [Option.map_some']
        rw [hfp]
      · simp [dget, hk, ih]

theorem dget_map_layoutNodeUpdate (dirs : List (ℕ × ℤ)) (deps : List (ℕ × ℕ))
    (slots : List (ℕ × ℚ)) (rootId : ℕ) (baseX baseY : ℚ) (l : List (ℕ × NodeData))
    (k : ℕ) :
    dget (l.map (layoutNodeUpdate dirs deps slots rootId baseX baseY)) k =
      (dget l k).map
        (fun v => (layoutNodeUpdate dirs deps slots rootId baseX baseY (k, v)).2) :=
  dget_map_f l (layoutNodeUpdate dirs deps slots rootId baseX baseY) (fun _ => rfl) k

/-- Frame facts of `auto_layout`: when the layout completes, the node-id set,
every node text, children list, cached size and custom flag, the parent map,
the next-id counter, the view transform and the palette cursor are unchanged;
only `x`, `y` and (for non-custom nodes) `fill` are rewritten. -/
theorem autoLayoutF_frame (fuel : ℕ) (ws ws' : WS) (baseX baseY : ℚ)
    (h : autoLayoutF fuel ws baseX baseY = some ws') :
    nodeIds ws' = nodeIds ws ∧
    ws'.parent = ws.parent ∧ ws'.rootId = ws.rootId ∧ ws'.nextId = ws.nextId ∧
    ws'.scale = ws.scale ∧ ws'.offsetX = ws.offsetX ∧ ws'.offsetY = ws.offsetY ∧
    ws'.paletteIndex = ws.paletteIndex ∧
    ∀ nid nd, dget ws.nodes nid = some nd →
      ∃ nd', dget ws'.nodes nid = some nd' ∧
        nd'.text = nd.text ∧ nd'.children = nd.children ∧ nd'.w = nd.w ∧ nd'.h = nd.h ∧
        nd'.custom = nd.custom ∧ (nd.custom = true → nd'.fill = nd.fill) := by
  unfold autoLayoutF at h
  by_cases he : ws.nodes.isEmpty
  · rw [if_pos he] at h
    obtain rfl : ws = ws' := Option.some_inj.mp h
    exact ⟨rfl, rfl, rfl, rfl, rfl, rfl, rfl, rfl,
      fun nid nd hd => ⟨nd, hd, rfl, rfl, rfl, rfl, rfl, fun _ => rfl⟩⟩
  · rw [if_neg he] at h
    simp only [] at h
    split at h
    · exact absurd h (by simp)
    · exact absurd h (by simp)
    · split at h
      · exact absurd h (by simp)
      · exact absurd h (by simp)
      · split at h
        · exact absurd h (by simp)
        · injection h with h2
          subst h2
          refine ⟨?_, rfl, rfl, rfl, rfl, rfl, rfl, rfl, ?_⟩
          · simp only [nodeIds, List.map_map]
            exact List.map_congr_left (fun p _ => rfl)
          · intro nid nd hd
            simp only [dget_map_layoutNodeUpdate]
            rw [hd]
            refine ⟨_, rfl, rfl, rfl, rfl, rfl, rfl, ?_⟩
            intro hcust
            simp [layoutNodeUpdate, hcust]

/-- C10: frame effect of auto-layout.  When `auto_layout` completes, the set
of node ids, every node text, children list, cached size and custom flag, the
parent map, the root, the next-id counter, the view transform and the palette
cursor are unchanged; only `x`, `y`, and the fill of non-custom nodes are
mutated. -/
theorem auto_layout_frame_effect (fuel : ℕ) (ws ws' : WS) (baseX baseY : ℚ)
    (h : autoLayoutF fuel ws baseX baseY = some ws') :
    nodeIds ws' = nodeIds ws ∧
    ws'.parent = ws.parent ∧ ws'.rootId = ws.rootId ∧ ws'.nextId = ws.nextId ∧
    ws'.scale = ws.scale ∧ ws'.offsetX = ws.offsetX ∧ ws'.offsetY = ws.offsetY ∧
    ws'.paletteIndex = ws.paletteIndex ∧
    ∀ nid nd, dget ws.nodes nid = some nd →
      ∃ nd', dget ws'.nodes nid = some nd' ∧
        nd'.text = nd.text ∧ nd'.children = nd.children ∧ nd'.w = nd.w ∧ nd'.h = nd.h ∧
        nd'.custom = nd.custom ∧ (nd.custom = true → nd'.fill = nd.fill) :=
  autoLayoutF_frame fuel ws ws' baseX baseY h

/-- Witness for C10: auto-layout of a one-node workspace moves the node to
the viewport center and changes nothing else. -/
theorem auto_layout_frame_witness :
    nodeIds ((autoLayoutF 5 ⟨[(1, ⟨"N", 7, 8, [], some "#B9C2FF", true, 160, 56⟩)],
        [(1, none)], some 1, 2, 1, 0, 0, 1⟩ 400 300).getD
      ⟨[(1, ⟨"N", 7, 8, [], some "#B9C2FF", true, 160, 56⟩)],
        [(1, none)], some 1, 2, 1, 0, 0, 1⟩) =
      nodeIds ⟨[(1, ⟨"N", 7, 8, [], some "#B9C2FF", true, 160, 56⟩)],
        [(1, none)], some 1, 2, 1, 0, 0, 1⟩ ∧
    ((autoLayoutF 5 ⟨[(1, ⟨"N", 7, 8, [], some "#B9C2FF", true, 160, 56⟩)],
        [(1, none)], some 1, 2, 1, 0, 0, 1⟩ 400 300).getD
      ⟨[(1, ⟨"N", 7, 8, [], some "#B9C2FF", true, 160, 56⟩)],
        [(1, none)], some 1, 2, 1, 0, 0, 1⟩).parent = [(1, none)] := by
  have heval : autoLayoutF 5 ⟨[(1, ⟨"N", 7, 8, [], some "#B9C2FF", true, 160, 56⟩)],
      [(1, none)], some 1, 2, 1, 0, 0, 1⟩ 400 300 =
      some ⟨[(1, ⟨"N", 400, 300, [], some "#B9C2FF", true, 160, 56⟩)],
        [(1, none)], some 1, 2, 1, 0, 0, 1⟩ := by
    norm_num [autoLayoutF, layoutNodeUpdate, assignDirectionsF, dirsLoopF, computeDepthsF,
      depthsLoopF, computeVerticalSlotsF, levelsOf, maxKey, slotsLevelStep, parentOf,
      dget, dset, nodeIds, List.enum, List.enumFrom]
  have hframe := auto_layout_frame_effect 5 _ _ 400 300 heval
  rw [heval]
  exact ⟨hframe.1, hframe.2.1⟩

/-- C9 (amended): every node created via create-node carries `custom = true`
(line 588 of the source), so a subsequent auto-layout leaves its fill
unchanged instead of resetting it to the depth-derived palette color. -/
theorem create_node_custom_flag :
    (∀ ws t x y mw mh,
      (dget (createNode ws t x y mw mh).1.nodes (createNode ws t x y mw mh).2).map
        NodeData.custom = some true) ∧
    (∀ fuel ws baseX baseY ws' nid nd, autoLayoutF fuel ws baseX baseY = some ws' →
      dget ws.nodes nid = some nd → nd.custom = true →
      (dget ws'.nodes nid).map NodeData.fill = some nd.fill) := by
  constructor
  · intro ws t x y mw mh
    unfold createNode
    simp only []
    split
    · simp [setRootWS, dget_dset_self]
    · simp [dget_dset_self]
  · intro fuel ws baseX baseY ws' nid nd h hd hcust
    obtain ⟨-, -, -, -, -, -, -, -, h9⟩ := autoLayoutF_frame fuel ws ws' baseX baseY h
    obtain ⟨nd', hd', -, -, -, -, -, hfill⟩ := h9 nid nd hd
    rw [hd', Option.map_some', hfill hcust]

/-- Witness for C9: creating a node on a fresh workspace yields `custom = true`,
and auto-layout keeps the palette fill of that custom node. -/
theorem create_node_custom_witness :
    (dget (createNode ⟨[], [], none, 1, 1, 0, 0, 0⟩ "Root" 0 0 0 0).1.nodes
      (createNode ⟨[], [], none, 1, 1, 0, 0, 0⟩ "Root" 0 0 0 0).2).map
        NodeData.custom = some true ∧
    (dget ((autoLayoutF 5 ⟨[(1, ⟨"M", 7, 8, [], some "#FFB3BE", true, 160, 56⟩)],
        [(1, none)], some 1, 2, 1, 0, 0, 1⟩ 400 300).getD
      ⟨[(1, ⟨"M", 7, 8, [], some "#FFB3BE", true, 160, 56⟩)],
        [(1, none)], some 1, 2, 1, 0, 0, 1⟩).nodes 1).map NodeData.fill =
      some (some "#FFB3BE") := by
  have heval : autoLayoutF 5 ⟨[(1, ⟨"M", 7, 8, [], some "#FFB3BE", true, 160, 56⟩)],
      [(1, none)], some 1, 2, 1, 0, 0, 1⟩ 400 300 =
      some ⟨[(1, ⟨"M", 400, 300, [], some "#FFB3BE", true, 160, 56⟩)],
        [(1, none)], some 1, 2, 1, 0, 0, 1⟩ := by
    norm_num [autoLayoutF, layoutNodeUpdate, assignDirectionsF, dirsLoopF, computeDepthsF,
      depthsLoopF, computeVerticalSlotsF, levelsOf, maxKey, slotsLevelStep, parentOf,
      dget, dset, nodeIds, List.enum, List.enumFrom]
  refine ⟨create_node_custom_flag.1 ⟨[], [], none, 1, 1, 0, 0, 0⟩ "Root" 0 0 0 0, ?_⟩
  have h2 := create_node_custom_flag.2 5
    ⟨[(1, ⟨"M", 7, 8, [], some "#FFB3BE", true, 160, 56⟩)], [(1, none)], some 1, 2, 1, 0, 0, 1⟩
    400 300 _ 1 ⟨"M", 7, 8, [], some "#FFB3BE", true, 160, 56⟩ heval (by decide) rfl
  rw [heval]
  exact h2

/-- Counterexample to C9 as stated: the node created by `_create_node` on a
fresh workspace has `custom = true`, not `false` (dict literal at line 588). -/
theorem create_node_custom_counterexample :
    (dget (createNode ⟨[], [], none, 1, 1, 0, 0, 0⟩ "First" 0 0 0 0).1.nodes
      (createNode ⟨[], [], none, 1, 1, 0, 0, 0⟩ "First" 0 0 0 0).2).map
        NodeData.custom = some true ∧
    (some true : Option Bool) ≠ some false := by
  exact ⟨by decide, by decide⟩

/-- C4: code bug.  Loading a document whose single node 1 lists the dangling
child id 2 produces a workspace in which 2 is not a loaded node, yet the
parent map gained the entry `2 ↦ 1` (line 1568 writes `parent[cid] = pid`
unconditionally) and the edge iterator yields `(1, 2)`; the `redraw()` at line
1584 then evaluates `self.nodes[2]` inside `_node_center`, a `KeyError`
(modelled as `nodeCenter ws 2 = none`).  The load path therefore crashes
instead of treating the id as an absent child, and it does propagate a parent
link for the missing id. -/
theorem load_dangling_child_bug :
    2 ∉ nodeIds (loadData ⟨[(1, ⟨some "A", some 0, some 0, some [2], none, none⟩)],
      some 1, none⟩) ∧
    dget (loadData ⟨[(1, ⟨some "A", some 0, some 0, some [2], none, none⟩)],
      some 1, none⟩).parent 2 = some (some 1) ∧
    (1, 2) ∈ edgesList (loadData ⟨[(1, ⟨some "A", some 0, some 0, some [2], none, none⟩)],
      some 1, none⟩) ∧
    nodeCenter (loadData ⟨[(1, ⟨some "A", some 0, some 0, some [2], none, none⟩)],
      some 1, none⟩) 2 = none :=
  ⟨by decide, by decide, by decide, by decide⟩

/-- On a two-cycle `a ↔ b` in the children lists, the `while stack` loop of
`_compute_depths` runs forever: the fuelled model returns `none` at every
fuel bound, from any depth dict that has an entry for the popped id. -/
theorem depthsLoopF_two_cycle (nodes : List (ℕ × NodeData)) (a b : ℕ)
    (nda ndb : NodeData) (ha : dget nodes a = some nda) (hca : nda.children = [b])
    (hb : dget nodes b = some ndb) (hcb : ndb.children = [a]) :
    ∀ fuel : ℕ,
      (∀ d : List (ℕ × ℕ), (dget d a).isSome → depthsLoopF nodes fuel d [a] = none) ∧
      (∀ d : List (ℕ × ℕ), (dget d b).isSome → depthsLoopF nodes fuel d [b] = none) := by
  intro fuel
  induction fuel with
  | zero => exact ⟨fun d _ => rfl, fun d _ => rfl⟩
  | succ n ih =>
      constructor
      · intro d hd
        obtain ⟨dn, hdn⟩ := Option.isSome_iff_exists.mp hd
        have step : depthsLoopF nodes (n+1) d [a]
            = depthsLoopF nodes n (dset d b (dn + 1)) [b] := by
          simp only [depthsLoopF, ha, hca, List.foldl, hdn]
        rw [step]
        exact ih.2 (dset d b (dn + 1)) (by rw [dget_dset_self]; rfl)
      · intro d hd
        obtain ⟨dn, hdn⟩ := Option.isSome_iff_exists.mp hd
        have step : depthsLoopF nodes (n+1) d [b]
            = depthsLoopF nodes n (dset d a (dn + 1)) [a] := by
          simp only [depthsLoopF, hb, hcb, List.foldl, hdn]
        rw [step]
        exact ih.1 (dset d a (dn + 1)) (by rw [dget_dset_self]; rfl)

/-- On the same two-cycle the `dfs` of `_collect_subtree` recurses forever:
`none` at every recursion-depth bound, from any accumulator. -/
theorem collectSubtreeF_two_cycle (nodes : List (ℕ × NodeData)) (a b : ℕ)
    (nda ndb : NodeData) (ha : dget nodes a = some nda) (hca : nda.children = [b])
    (hb : dget nodes b = some ndb) (hcb : ndb.children = [a]) :
    ∀ fuel : ℕ,
      (∀ acc : List ℕ, collectSubtreeF nodes fuel a acc = none) ∧
      (∀ acc : List ℕ, collectSubtreeF nodes fuel b acc = none) := by
  intro fuel
  induction fuel with
  | zero => exact ⟨fun _ => rfl, fun _ => rfl⟩
  | succ n ih =>
      constructor
      · intro acc
        have step : collectSubtreeF nodes (n+1) a acc
            = collectSubtreeF nodes n b (acc ++ [a]) := by
          simp only [collectSubtreeF, ha, hca, List.foldl]
        rw [step]
        exact ih.2 (acc ++ [a])
      · intro acc
        have step : collectSubtreeF nodes (n+1) b acc
            = collectSubtreeF nodes n a (acc ++ [b]) := by
          simp only [collectSubtreeF, hb, hcb, List.foldl]
        rw [step]
        exact ih.1 (acc ++ [b])

/-- C8: code bug.  `_compute_depths` has no visited guard, so on the cyclic
children lists the load routine accepts (nodes 1 and 2 each listing the other
as child) its `while stack` loop never terminates: the fuelled model is still
running (`none`) at every fuel bound.  The recursive `_collect_subtree`
likewise recurses forever on the same workspace.  The visited-guarded
`_node_depth` walk, by contrast, terminates on the same cyclic parent map. -/
theorem compute_depths_cycle_divergence :
    (∀ fuel : ℕ, computeDepthsF wsCyc fuel 1 = none) ∧
    (∀ fuel : ℕ, collectSubtreeF wsCyc.nodes fuel 1 [] = none) ∧
    nodeDepth wsCyc.parent 1 = 1 := by
  refine ⟨?_, ?_, by decide⟩
  · intro fuel
    have h := (depthsLoopF_two_cycle wsCyc.nodes 1 2
      ⟨"A", 0, 0, [2], none, false, NODE_W, NODE_H⟩
      ⟨"B", 0, 0, [1], none, false, NODE_W, NODE_H⟩
      rfl rfl rfl rfl fuel).1 [(1, 0)] (by decide)
    unfold computeDepthsF
    rw [h]
  · intro fuel
    exact (collectSubtreeF_two_cycle wsCyc.nodes 1 2
      ⟨"A", 0, 0, [2], none, false, NODE_W, NODE_H⟩
      ⟨"B", 0, 0, [1], none, false, NODE_W, NODE_H⟩
      rfl rfl rfl rfl fuel).1 []

/-- C3 (amended): the pre-margin exit point always lies exactly on the ellipse
with semi-axes `max(NODE_W·scale/2, 1)` and `max(NODE_H·scale/2, 1)` — the
default-size constants, not the node's cached size — and within the `1e-4`
near-coincidence guard the exit direction defaults to straight down, giving
the point `(cx, cy + b)`. -/
theorem edge_exit_on_ellipse (scale cx cy tx ty : ℝ) :
    ((edgeExitCore scale cx cy tx ty).1 - cx) ^ 2 / exitA scale ^ 2 +
      ((edgeExitCore scale cx cy tx ty).2 - cy) ^ 2 / exitB scale ^ 2 = 1 ∧
    (|tx - cx| < 1 / 10000 ∧ |ty - cy| < 1 / 10000 →
      edgeExitCore scale cx cy tx ty = (cx, cy + exitB scale)) := by
  have hA : (0 : ℝ) < exitA scale := lt_of_lt_of_le one_pos (le_max_right _ _)
  have hB : (0 : ℝ) < exitB scale := lt_of_lt_of_le one_pos (le_max_right _ _)
  by_cases hg : |tx - cx| < 1 / 10000 ∧ |ty - cy| < 1 / 10000
  · have hd : exitDir scale cx cy tx ty = (0, exitB scale) := by
      rw [exitDir, if_pos hg]
    have harg : (0 : ℝ) * 0 / (exitA scale * exitA scale) +
        exitB scale * exitB scale / (exitB scale * exitB scale) = 1 := by
      rw [zero_mul, zero_div, zero_add, div_self (mul_ne_zero hB.ne' hB.ne')]
    have hcore : edgeExitCore scale cx cy tx ty = (cx, cy + exitB scale) := by
      rw [edgeExitCore, hd]
      simp only [harg, Real.sqrt_one, one_ne_zero, if_false]
      norm_num
    refine ⟨?_, fun _ => hcore⟩
    rw [hcore]
    have h1 : cx - cx = 0 := by ring
    have h2 : cy + exitB scale - cy = exitB scale := by ring
    simp only [h1, h2]
    rw [zero_pow (by norm_num), zero_div, zero_add,
      div_self (pow_ne_zero 2 hB.ne')]
  · have hd : exitDir scale cx cy tx ty = (tx - cx, ty - cy) := by
      rw [exitDir, if_neg hg]
    have hne : tx - cx ≠ 0 ∨ ty - cy ≠ 0 := by
      by_contra hc
      push_neg at hc
      exact hg ⟨by rw [hc.1]; norm_num, by rw [hc.2]; norm_num⟩
    have hF : 0 < (tx - cx) * (tx - cx) / (exitA scale * exitA scale) +
        (ty - cy) * (ty - cy) / (exitB scale * exitB scale) := by
      rcases hne with h | h
      · exact add_pos_of_pos_of_nonneg
          (div_pos (mul_self_pos.mpr h) (mul_pos hA hA))
          (div_nonneg (mul_self_nonneg _) (le_of_lt (mul_pos hB hB)))
      · exact add_pos_of_nonneg_of_pos
          (div_nonneg (mul_self_nonneg _) (le_of_lt (mul_pos hA hA)))
          (div_pos (mul_self_pos.mpr h) (mul_pos hB hB))
    have hsp : 0 < Real.sqrt ((tx - cx) * (tx - cx) / (exitA scale * exitA scale) +
        (ty - cy) * (ty - cy) / (exitB scale * exitB scale)) := Real.sqrt_pos.mpr hF
    have hcore : edgeExitCore scale cx cy tx ty =
        (cx + (tx - cx) * (1 / Real.sqrt ((tx - cx) * (tx - cx) /
            (exitA scale * exitA scale) +
            (ty - cy) * (ty - cy) / (exitB scale * exitB scale))),
         cy + (ty - cy) * (1 / Real.sqrt ((tx - cx) * (tx - cx) /
            (exitA scale * exitA scale) +
            (ty - cy) * (ty - cy) / (exitB scale * exitB scale)))) := by
      rw [edgeExitCore, hd]
      simp only [if_neg hsp.ne']
    refine ⟨?_, fun hg2 => absurd hg2 hg⟩
    rw [hcore]
    have hsq : Real.sqrt ((tx - cx) * (tx - cx) / (exitA scale * exitA scale) +
        (ty - cy) * (ty - cy) / (exitB scale * exitB scale)) ^ 2 =
        (tx - cx) * (tx - cx) / (exitA scale * exitA scale) +
        (ty - cy) * (ty - cy) / (exitB scale * exitB scale) :=
      Real.sq_sqrt (le_of_lt hF)
    have h1 : cx + (tx - cx) * (1 / Real.sqrt ((tx - cx) * (tx - cx) /
        (exitA scale * exitA scale) +
        (ty - cy) * (ty - cy) / (exitB scale * exitB scale))) - cx =
        (tx - cx) * (1 / Real.sqrt ((tx - cx) * (tx - cx) /
        (exitA scale * exitA scale) +
        (ty - cy) * (ty - cy) / (exitB scale * exitB scale))) := by ring
    have h2 : cy + (ty - cy) * (1 / Real.sqrt ((tx - cx) * (tx - cx) /
        (exitA scale * exitA scale) +
        (ty - cy) * (ty - cy) / (exitB scale * exitB scale))) - cy =
        (ty - cy) * (1 / Real.sqrt ((tx - cx) * (tx - cx) /
        (exitA scale * exitA scale) +
        (ty - cy) * (ty - cy) / (exitB scale * exitB scale))) := by ring
    simp only [h1, h2]
    rw [mul_pow, mul_pow, one_div, inv_pow, hsq]
    have hexp : ∀ u v s A B : ℝ, A ≠ 0 → B ≠ 0 → s ≠ 0 →
        u ^ 2 * s⁻¹ / A ^ 2 + v ^ 2 * s⁻¹ / B ^ 2 =
          (u * u / (A * A) + v * v / (B * B)) * s⁻¹ := by
      intro u v s A B hA0 hB0 hs0
      field_simp
      ring
    rw [hexp _ _ _ _ _ hA.ne' hB.ne' hF.ne']
    exact mul_inv_cancel₀ hF.ne'

/-- Witness for C3: coincident centers at scale 1 — the guard fires and the
exit point is straight down, `(0, 0 + exitB 1)`. -/
theorem edge_exit_witness :
    (|(0 : ℝ) - 0| < 1 / 10000 ∧ |(0 : ℝ) - 0| < 1 / 10000) ∧
    edgeExitCore 1 0 0 0 0 = (0, 0 + exitB 1) :=
  ⟨⟨by norm_num, by norm_num⟩,
   (edge_exit_on_ellipse 1 0 0 0 0).2 ⟨by norm_num, by norm_num⟩⟩

/-- Counterexample to C3 as stated: a node of cached width 300 (tall text) at
scale 1, center `(0,0)`, target `(1000, 0)`.  The code's pre-margin exit point
is `(80, 0)` — on the ellipse of the `NODE_W = 160` constant — but not on the
node's own bounding ellipse of semi-axis `300/2 = 150` that the spec names. -/
theorem edge_exit_counterexample :
    edgeExitCore 1 0 0 1000 0 = (80, 0) ∧
    ¬ onNodeEllipseSpec 300 56 1 0 0 (80, 0) ∧
    onNodeEllipseSpec 160 56 1 0 0 (80, 0) := by
  have hA : exitA 1 = 80 := by
    rw [exitA]
    norm_num [NODE_W, max_def]
  have hB : exitB 1 = 28 := by
    rw [exitB]
    norm_num [NODE_H, max_def]
  have hcond : ¬(|(1000 : ℝ) - 0| < 1 / 10000 ∧ |(0 : ℝ) - 0| < 1 / 10000) := by
    rintro ⟨h1, -⟩
    rw [show (1000 : ℝ) - 0 = 1000 by ring,
      abs_of_nonneg (by norm_num : (0 : ℝ) ≤ 1000)] at h1
    norm_num at h1
  have hd : exitDir 1 0 0 1000 0 = (1000, 0) := by
    rw [exitDir, if_neg hcond]
    norm_num
  have harg : (1000 : ℝ) * 1000 / (exitA 1 * exitA 1) + 0 * 0 / (exitB 1 * exitB 1)
      = (25 / 2) ^ 2 := by
    rw [hA, hB]
    norm_num
  have hsq : Real.sqrt ((1000 : ℝ) * 1000 / (exitA 1 * exitA 1) +
      0 * 0 / (exitB 1 * exitB 1)) = 25 / 2 := by
    rw [harg, Real.sqrt_sq (by norm_num : (0 : ℝ) ≤ 25 / 2)]
  refine ⟨?_, ?_, ?_⟩
  · rw [edgeExitCore, hd]
    simp only [hsq]
    norm_num
  · rw [onNodeEllipseSpec]
    norm_num
  · rw [onNodeEllipseSpec]
    norm_num

end MindMap
